import Mathlib

/-!
# LogParser: the line-matching engine of `parser/parser.go`

A shallow embedding of `LogParser.Parse` and `LogEntry.String`.

* Go `string` values are Lean `String`s; the matcher and the timestamp reader
  work on their character lists.
* The four recognizer patterns are written as regular-expression trees, one node
  for each construct of the pattern text, and run by a backtracking matcher that
  yields the candidate matches in priority order (leftmost-first, greedy), which
  is the match `regexp.FindStringSubmatch` reports.
* `time.Parse` and `Time.Format` are modelled for the layouts the parser uses,
  following the Go standard library's `time/format.go`.
* `time.Now()` is an explicit argument `now`.
-/

/-! ## Package `regexp` -/

namespace regexp

/-- Class `\d`, which is `[0-9]`. -/
def isDigit (c : Char) : Bool := decide (48 ≤ c.toNat) && decide (c.toNat ≤ 57)

/-- Class `\w`, which is `[0-9A-Za-z_]`. -/
def isWord (c : Char) : Bool :=
  isDigit c || (decide (65 ≤ c.toNat) && decide (c.toNat ≤ 90)) ||
    (decide (97 ≤ c.toNat) && decide (c.toNat ≤ 122)) || decide (c.toNat = 95)

/-- Class `\s`, which is `[\t\n\f\r ]`. -/
def isSpace (c : Char) : Bool :=
  decide (c.toNat = 9) || decide (c.toNat = 10) || decide (c.toNat = 12) ||
    decide (c.toNat = 13) || decide (c.toNat = 32)

/-- Class `.` without the `s` flag: any character but a line feed. -/
def anyNotNL (c : Char) : Bool := !decide (c.toNat = 10)

/-- Class `[^"]`: any character but the double quote (a negated class does match a line feed). -/
def notQuote (c : Char) : Bool := !decide (c.toNat = 34)

/-- A single literal character. -/
def isChar (x : Char) (c : Char) : Bool := decide (c.toNat = x.toNat)

/-- Regular expressions, restricted to the constructs of the four patterns:
repetition is applied to character classes only. -/
inductive Re where
  /-- Anchor `^`: beginning of text (no `m` flag). -/
  | bot : Re
  /-- Anchor `$`: end of text (no `m` flag). -/
  | eot : Re
  /-- One character of a class. -/
  | cls (p : Char → Bool) : Re
  /-- Concatenation. -/
  | seq (a b : Re) : Re
  /-- Option `a?`, greedy. -/
  | opt (a : Re) : Re
  /-- Repetition `c*` of a class `c`, greedy. -/
  | star (p : Char → Bool) : Re
  /-- Repetition `c+` of a class `c`, greedy. -/
  | plus (p : Char → Bool) : Re
  /-- Capturing group number `n`. -/
  | group (n : Nat) (a : Re) : Re

/-- Concatenation of a list of expressions, the last one given apart. -/
def Re.cat : List Re → Re → Re
  | [], z => z
  | r :: rs, z => Re.seq r (Re.cat rs z)

/-- The counted repetition `c{2}` of a class. -/
def Re.two (p : Char → Bool) : List Re := [Re.cls p, Re.cls p]

/-- The counted repetition `c{4}` of a class. -/
def Re.four (p : Char → Bool) : List Re := [Re.cls p, Re.cls p, Re.cls p, Re.cls p]

/-- A literal string, one node for each character. -/
def Re.str (s : String) : List Re := s.data.map (fun x => Re.cls (isChar x))

/-- One candidate match: the captures made, the text consumed and the text left. -/
structure Thread where
  caps : List (Nat × List Char)
  text : List Char
  rest : List Char

/-- The ways `c*` can match at the front of the input, longest first. -/
def runStar (p : Char → Bool) : List Char → List (List Char × List Char)
  | [] => [([], [])]
  | c :: cs =>
    if p c then (runStar p cs).map (fun tr => (c :: tr.1, tr.2)) ++ [([], c :: cs)]
    else [([], c :: cs)]

/-- The ways `c+` can match at the front of the input, longest first. -/
def runPlus (p : Char → Bool) : List Char → List (List Char × List Char)
  | [] => []
  | c :: cs => if p c then (runStar p cs).map (fun tr => (c :: tr.1, tr.2)) else []

/-- All matches of an expression at the front of the input, in priority order
(the order in which a backtracking matcher reaches them). `atStart` tells whether
the input begins at the beginning of the text. -/
def run : Re → Bool → List Char → List Thread
  | .bot, atStart, s => if atStart then [⟨[], [], s⟩] else []
  | .eot, _, [] => [⟨[], [], []⟩]
  | .eot, _, _ :: _ => []
  | .cls _, _, [] => []
  | .cls p, _, c :: cs => if p c then [⟨[], [c], cs⟩] else []
  | .seq a b, atStart, s =>
    (run a atStart s).flatMap (fun t1 =>
      (run b (atStart && t1.text.isEmpty) t1.rest).map (fun t2 =>
        ⟨t2.caps ++ t1.caps, t1.text ++ t2.text, t2.rest⟩))
  | .opt a, atStart, s => run a atStart s ++ [⟨[], [], s⟩]
  | .star p, _, s => (runStar p s).map (fun tr => ⟨[], tr.1, tr.2⟩)
  | .plus p, _, s => (runPlus p s).map (fun tr => ⟨[], tr.1, tr.2⟩)
  | .group n a, atStart, s =>
    (run a atStart s).map (fun t => ⟨(n, t.text) :: t.caps, t.text, t.rest⟩)

/-- The texts of groups `i, i+1, ..., i+n-1`; a group that took no part is the empty string. -/
def groupTexts (caps : List (Nat × List Char)) : Nat → Nat → List String
  | _, 0 => []
  | i, n + 1 => String.mk ((caps.lookup i).getD []) :: groupTexts caps (i + 1) n

/-- A compiled expression: the tree and its number of capturing groups. -/
structure Regexp where
  re : Re
  numSubexp : Nat

/-- The preferred match at the front of the input, as the slice `FindStringSubmatch`
returns: the whole match, then the text of each group. -/
def Regexp.matchAt (r : Regexp) (atStart : Bool) (s : List Char) : Option (List String) :=
  (run r.re atStart s).head?.map (fun t => String.mk t.text :: groupTexts t.caps 1 r.numSubexp)

/-- The leftmost match: the match is tried at each offset of the text in turn. -/
def Regexp.search (r : Regexp) : Bool → List Char → Option (List String)
  | atStart, [] => r.matchAt atStart []
  | atStart, c :: cs =>
    match r.matchAt atStart (c :: cs) with
    | some m => some m
    | none => r.search false cs

/-- Method `FindStringSubmatch`: the leftmost match and its submatches, `none` for Go's `nil`. -/
def Regexp.FindStringSubmatch (r : Regexp) (s : String) : Option (List String) :=
  r.search true s.data

end regexp

/-! ## Package `strings` -/

namespace strings

/-- Function `unicode.IsSpace`: the characters with the Unicode White Space property. -/
def IsSpace (c : Char) : Bool :=
  (decide (9 ≤ c.toNat) && decide (c.toNat ≤ 13)) || decide (c.toNat = 32) ||
    decide (c.toNat = 0x85) || decide (c.toNat = 0xA0) || decide (c.toNat = 0x1680) ||
    (decide (0x2000 ≤ c.toNat) && decide (c.toNat ≤ 0x200A)) ||
    decide (c.toNat = 0x2028) || decide (c.toNat = 0x2029) || decide (c.toNat = 0x202F) ||
    decide (c.toNat = 0x205F) || decide (c.toNat = 0x3000)

/-- Function `strings.TrimSpace` on a character list: leading and trailing white space removed. -/
def trimSpaceChars (s : List Char) : List Char :=
  ((s.dropWhile IsSpace).reverse.dropWhile IsSpace).reverse

/-- Function `strings.TrimSpace`. -/
def TrimSpace (s : String) : String := String.mk (trimSpaceChars s.data)

/-- Function `strings.Join` on character lists. -/
def joinChars (sep : List Char) : List (List Char) → List Char
  | [] => []
  | [a] => a
  | a :: b :: rest => a ++ sep ++ joinChars sep (b :: rest)

end strings

/-! ## Package `time` -/

namespace time

/-- A `time.Time`, held as the calendar fields it shows in its own location, with
that location's offset from UTC in seconds. -/
structure Time where
  year : Int
  month : Nat
  day : Nat
  hour : Nat
  min : Nat
  sec : Nat
  nsec : Nat
  offset : Int
  deriving DecidableEq

/-- The elements of a layout: literal text and the reference-time fields that the
layouts of the parser contain, as `nextStdChunk` cuts them. -/
inductive Chunk where
  | lit (s : List Char) : Chunk
  | stdLongYear : Chunk
  | stdZeroMonth : Chunk
  | stdZeroDay : Chunk
  | stdHour : Chunk
  | stdZeroMinute : Chunk
  | stdZeroSecond : Chunk
  | stdFracSecond0 (digits : Nat) : Chunk
  | stdISO8601ColonTZ : Chunk

/-- Layout `"2006-01-02 15:04:05"`. -/
def layoutDateTime : List Chunk :=
  [.stdLongYear, .lit ['-'], .stdZeroMonth, .lit ['-'], .stdZeroDay, .lit [' '],
   .stdHour, .lit [':'], .stdZeroMinute, .lit [':'], .stdZeroSecond]

/-- Layout `"2006-01-02 15:04:05.000"`. -/
def layoutDateTimeMilli : List Chunk := layoutDateTime ++ [.stdFracSecond0 3]

/-- Layout `time.RFC3339`, which is `"2006-01-02T15:04:05Z07:00"`. -/
def RFC3339 : List Chunk :=
  [.stdLongYear, .lit ['-'], .stdZeroMonth, .lit ['-'], .stdZeroDay, .lit ['T'],
   .stdHour, .lit [':'], .stdZeroMinute, .lit [':'], .stdZeroSecond, .stdISO8601ColonTZ]

/-- Layout `"2006-01-02T15:04:05.000"`. -/
def layoutTMilli : List Chunk :=
  [.stdLongYear, .lit ['-'], .stdZeroMonth, .lit ['-'], .stdZeroDay, .lit ['T'],
   .stdHour, .lit [':'], .stdZeroMinute, .lit [':'], .stdZeroSecond, .stdFracSecond0 3]

/-- A decimal digit, `'0'` to `'9'`. -/
def isDigit (c : Char) : Bool := decide (48 ≤ c.toNat) && decide (c.toNat ≤ 57)

/-- The value of a digit character. -/
def digitVal (c : Char) : Nat := c.toNat - 48

/-- Function `commaOrPeriod`. -/
def commaOrPeriod (c : Char) : Bool := decide (c.toNat = 46) || decide (c.toNat = 44)

/-- Function `cutspace`: leading space characters removed. -/
def cutspace : List Char → List Char
  | [] => []
  | c :: cs => if c.toNat = 32 then cutspace cs else c :: cs

/-- The loop of `skip`: the literal text of the layout is removed from the front of
the value, a run of spaces standing for any run of spaces. -/
def skipLoop : Nat → List Char → List Char → Option (List Char)
  | _, value, [] => some value
  | 0, _, _ :: _ => none
  | fuel + 1, value, p :: ps =>
    if p.toNat = 32 then
      match value with
      | v :: vs =>
        if v.toNat ≠ 32 then none else skipLoop fuel (cutspace (v :: vs)) (cutspace (p :: ps))
      | [] => skipLoop fuel [] (cutspace (p :: ps))
    else
      match value with
      | v :: vs => if v = p then skipLoop fuel vs ps else none
      | [] => none

/-- Function `skip`; each turn of its loop shortens the literal text, so its length bounds the turns. -/
def skip (value lit : List Char) : Option (List Char) := skipLoop lit.length value lit

/-- Function `getnum`: a two-digit number, or one digit when `fixed` is false. -/
def getnum (s : List Char) (fixed : Bool) : Option (Nat × List Char) :=
  match s with
  | [] => none
  | [a] => if isDigit a then (if fixed then none else some (digitVal a, [])) else none
  | a :: b :: rest =>
    if isDigit a then
      if isDigit b then some (digitVal a * 10 + digitVal b, rest)
      else if fixed then none else some (digitVal a, b :: rest)
    else none

/-- Function `leadingInt`: the value of the leading digits and the text after them. -/
def leadingInt : Nat → List Char → Nat × List Char
  | x, [] => (x, [])
  | x, c :: cs => if isDigit c then leadingInt (x * 10 + digitVal c) cs else (x, c :: cs)

/-- Function `atoi`: an optional sign and digits up to the end. Its callers pass at
most nine characters, so the overflow guard of `leadingInt` is left out. -/
def atoi (s : List Char) : Option Int :=
  let signed : Bool × List Char :=
    match s with
    | [] => (false, [])
    | c :: cs => if c.toNat = 45 then (true, cs) else if c.toNat = 43 then (false, cs) else (false, c :: cs)
  match leadingInt 0 signed.2 with
  | (q, []) => some (if signed.1 then -(q : Int) else (q : Int))
  | (_, _ :: _) => none

/-- Function `parseNanoseconds`: `value` starts with the separator and `nbytes` counts
the separator and the digits read; digits beyond the ninth are dropped. -/
def parseNanoseconds (value : List Char) (nbytes : Nat) : Option Nat :=
  match value with
  | [] => none
  | c :: _ =>
    if !commaOrPeriod c then none
    else
      let n := min nbytes 10
      match atoi ((value.take n).drop 1) with
      | none => none
      | some ns => if ns < 0 then none else some (ns.toNat * 10 ^ (10 - n))

/-- The length of the leading run of digits. -/
def digitRun : List Char → Nat
  | [] => 0
  | c :: cs => if isDigit c then digitRun cs + 1 else 0

/-- The fields collected while a value is parsed (`month` and `day` start unset). -/
structure Parsed where
  year : Int := 0
  month : Option Nat := none
  day : Option Nat := none
  hour : Nat := 0
  min : Nat := 0
  sec : Nat := 0
  nsec : Nat := 0
  utc : Bool := false
  zoneOffset : Option Int := none

/-- The next reference-time field of a layout, literal text passed over. -/
def nextStd : List Chunk → Option Chunk
  | [] => none
  | .lit _ :: rest => nextStd rest
  | c :: _ => some c

/-- Whether a chunk is a fractional-second field. -/
def Chunk.isFrac : Chunk → Bool
  | .stdFracSecond0 _ => true
  | _ => false

/-- The zone field `Z07:00`: a `Z`, or a sign, two digits, a colon and two digits. -/
def parseZone (st : Parsed) (value : List Char) : Option (Parsed × List Char) :=
  match value with
  | [] => none
  | z :: zs =>
    if z.toNat = 90 then some ({ st with utc := true }, zs)
    else
      match value with
      | sign :: h1 :: h2 :: colon :: m1 :: m2 :: rest =>
        if colon.toNat ≠ 58 then none
        else
          match getnum [h1, h2] true with
          | none => none
          | some (hr, _) =>
            match getnum [m1, m2] true with
            | none => none
            | some (mm, _) =>
              if 24 < hr then none
              else if 60 < mm then none
              else
                let off : Int := (((hr * 60 + mm) * 60 : Nat) : Int)
                if sign.toNat = 43 then some ({ st with zoneOffset := some off }, rest)
                else if sign.toNat = 45 then some ({ st with zoneOffset := some (-off) }, rest)
                else none
      | _ => none

/-- The main loop of `parse`: one layout element read from the front of the value
at each turn; `none` is any of its errors (bad syntax or a field out of range). -/
def parseLoop : List Chunk → Parsed → List Char → Option Parsed
  | [], st, value => if value.isEmpty then some st else none
  | .lit p :: layout, st, value =>
    match skip value p with
    | none => none
    | some value => parseLoop layout st value
  | .stdLongYear :: layout, st, value =>
    match value with
    | a :: _ =>
      if value.length < 4 || !isDigit a then none
      else
        match atoi (value.take 4) with
        | none => none
        | some y => parseLoop layout { st with year := y } (value.drop 4)
    | [] => none
  | .stdZeroMonth :: layout, st, value =>
    match getnum value true with
    | none => none
    | some (month, value) =>
      if month = 0 || 12 < month then none
      else parseLoop layout { st with month := some month } value
  | .stdZeroDay :: layout, st, value =>
    match getnum value true with
    | none => none
    | some (day, value) => parseLoop layout { st with day := some day } value
  | .stdHour :: layout, st, value =>
    match getnum value false with
    | none => none
    | some (hour, value) =>
      if 24 ≤ hour then none else parseLoop layout { st with hour := hour } value
  | .stdZeroMinute :: layout, st, value =>
    match getnum value true with
    | none => none
    | some (min, value) =>
      if 60 ≤ min then none else parseLoop layout { st with min := min } value
  | .stdZeroSecond :: layout, st, value =>
    match getnum value true with
    | none => none
    | some (sec, value) =>
      if 60 ≤ sec then none
      else
        match value with
        | sep :: d :: more =>
          if commaOrPeriod sep && isDigit d then
            if ((nextStd layout).map Chunk.isFrac).getD false then
              parseLoop layout { st with sec := sec } value
            else
              let n := 2 + digitRun more
              match parseNanoseconds value n with
              | none => none
              | some nsec => parseLoop layout { st with sec := sec, nsec := nsec } (value.drop n)
          else parseLoop layout { st with sec := sec } value
        | _ => parseLoop layout { st with sec := sec } value
  | .stdFracSecond0 digits :: layout, st, value =>
    let ndigit := 1 + digits
    if value.length < ndigit then none
    else
      match parseNanoseconds value ndigit with
      | none => none
      | some nsec => parseLoop layout { st with nsec := nsec } (value.drop ndigit)
  | .stdISO8601ColonTZ :: layout, st, value =>
    match parseZone st value with
    | none => none
    | some (st, value) => parseLoop layout st value

/-- Function `isLeap`. -/
def isLeap (year : Int) : Bool := year % 4 = 0 && (year % 100 ≠ 0 || year % 400 = 0)

/-- Function `daysIn`: the number of days of a month. -/
def daysIn (month : Nat) (year : Int) : Nat :=
  if month = 2 then (if isLeap year then 29 else 28)
  else if month = 4 || month = 6 || month = 9 || month = 11 then 30
  else 31

/-- The end of `parse`: the check of the day of the month and the choice of the
location (`Z` and no zone at all give UTC, an offset gives a zone of that offset). -/
def finish (st : Parsed) : Option Time :=
  let month := st.month.getD 1
  let day := st.day.getD 1
  if day < 1 || daysIn month st.year < day then none
  else
    some { year := st.year, month := month, day := day, hour := st.hour, min := st.min,
           sec := st.sec, nsec := st.nsec,
           offset := if st.utc then 0 else st.zoneOffset.getD 0 }

/-- Function `time.Parse`: the loop over the layout, then the final checks. -/
def Parse (layout : List Chunk) (value : String) : Option Time :=
  match parseLoop layout {} value.data with
  | none => none
  | some st => finish st

/-- One decimal digit as a character. -/
def digitChar (n : Nat) : Char := Char.ofNat (48 + n % 10)

/-- The decimal digits of a number, most significant first. -/
def utod : Nat → Nat → List Char → List Char
  | 0, _, acc => acc
  | fuel + 1, n, acc =>
    if n / 10 = 0 then digitChar n :: acc else utod fuel (n / 10) (digitChar n :: acc)

/-- Function `appendInt`: a sign for a negative number, then the digits, padded with zeros to `width`. -/
def appendInt (x : Int) (width : Nat) : List Char :=
  let ds := utod (x.natAbs + 1) x.natAbs []
  (if x < 0 then ['-'] else []) ++ List.replicate (width - ds.length) '0' ++ ds

/-- Function `appendNano` for a `.000` field: the separator and the first `digits` of the nine digits of the nanoseconds. -/
def appendNano (nsec : Nat) (digits : Nat) : List Char :=
  '.' :: (appendInt nsec 9).take digits

/-- The text one layout element contributes to `Format`. The zone in minutes is the
offset divided by 60 with Go's integer division, which rounds toward zero. -/
def Time.appendChunk (t : Time) : Chunk → List Char
  | .lit s => s
  | .stdLongYear => appendInt t.year 4
  | .stdZeroMonth => appendInt t.month 2
  | .stdZeroDay => appendInt t.day 2
  | .stdHour => appendInt t.hour 2
  | .stdZeroMinute => appendInt t.min 2
  | .stdZeroSecond => appendInt t.sec 2
  | .stdFracSecond0 digits => appendNano t.nsec digits
  | .stdISO8601ColonTZ =>
    if t.offset = 0 then ['Z']
    else
      let zone := Int.tdiv t.offset 60
      (if zone < 0 then ['-'] else ['+']) ++ appendInt (zone.natAbs / 60) 2 ++ [':'] ++
        appendInt (zone.natAbs % 60) 2

/-- Method `Time.Format`. -/
def Time.Format (t : Time) (layout : List Chunk) : String :=
  String.mk (layout.map t.appendChunk).flatten

end time

/-! ## Package `parser` -/

namespace parser

open regexp

/-- Type `LogEntry`. `Fields` lists the entries of the Go map, in the order one
iteration over the map visits them. -/
structure LogEntry where
  Timestamp : time.Time
  Level : String
  Message : String
  Fields : List (String × String)
  Raw : String
  deriving DecidableEq

/-- Type `logPattern`; the handler also receives the reading of the clock. -/
structure logPattern where
  name : String
  regex : Regexp
  handler : time.Time → List String → Except String LogEntry

/-- Type `LogParser`. -/
structure LogParser where
  patterns : List logPattern

/-- Element `matches[i]` of the submatch slice. -/
def sub (submatches : List String) (i : Nat) : String := submatches.getD i ""

/-- The date part `\d{4}-\d{2}-\d{2}` that opens the first two patterns. -/
def dateRe : List Re :=
  Re.four isDigit ++ [.cls (isChar '-')] ++ Re.two isDigit ++ [.cls (isChar '-')] ++ Re.two isDigit

/-- The time part `\d{2}:\d{2}:\d{2}`, before the last `\d`. -/
def clockRe : List Re :=
  Re.two isDigit ++ [.cls (isChar ':')] ++ Re.two isDigit ++ [.cls (isChar ':'), .cls isDigit]

/-- The part `\s+\[(\w+)\]\s+(.+)$` that closes three of the patterns, with the
numbers of its two groups. -/
def levelMessageRe (level message : Nat) : Re :=
  Re.cat [.plus isSpace, .cls (isChar '['), .group level (.plus isWord), .cls (isChar ']'),
          .plus isSpace, .group message (.plus anyNotNL)] .eot

/-- The body `\d{4}-\d{2}-\d{2}\s+\d{2}:\d{2}:\d{2}(?:\.\d+)?` of group 1 of the standard pattern. -/
def standardStampRe : Re :=
  Re.cat (dateRe ++ [.plus isSpace] ++ clockRe ++ [.cls isDigit])
    (.opt (.seq (.cls (isChar '.')) (.plus isDigit)))

/-- Pattern `^(\d{4}-\d{2}-\d{2}\s+\d{2}:\d{2}:\d{2}(?:\.\d+)?)\s+\[(\w+)\]\s+(.+)$`. -/
def standardRegex : Regexp where
  re := .seq .bot (.seq (.group 1 standardStampRe) (levelMessageRe 2 3))
  numSubexp := 3

/-- The body `\d{4}-\d{2}-\d{2}T\d{2}:\d{2}:\d{2}(?:\.\d+)?Z?` of group 1 of the ISO 8601 pattern. -/
def isoStampRe : Re :=
  Re.cat (dateRe ++ [.cls (isChar 'T')] ++ clockRe ++ [.cls isDigit,
    .opt (.seq (.cls (isChar '.')) (.plus isDigit))])
    (.opt (.cls (isChar 'Z')))

/-- Pattern `^(\d{4}-\d{2}-\d{2}T\d{2}:\d{2}:\d{2}(?:\.\d+)?Z?)\s+\[(\w+)\]\s+(.+)$`. -/
def isoRegex : Regexp where
  re := .seq .bot (.seq (.group 1 isoStampRe) (levelMessageRe 2 3))
  numSubexp := 3

/-- A quoted key followed by its value, `\s*"key"\s*:\s*"([^"]+)"\s*`, the value in group `n`. -/
def keyValueRe (key : String) (n : Nat) : List Re :=
  [.star isSpace, .cls (isChar '"')] ++ Re.str key ++
    [.cls (isChar '"'), .star isSpace, .cls (isChar ':'), .star isSpace, .cls (isChar '"'),
     .group n (.plus notQuote), .cls (isChar '"'), .star isSpace]

/-- Pattern
`^\s*\{\s*"timestamp"\s*:\s*"([^"]+)"\s*,\s*"level"\s*:\s*"([^"]+)"\s*,\s*"message"\s*:\s*"([^"]+)"\s*\}\s*$`. -/
def jsonRegex : Regexp where
  re := Re.cat ([.bot, .star isSpace, .cls (isChar (Char.ofNat 123))] ++
    keyValueRe "timestamp" 1 ++ [.cls (isChar ',')] ++
    keyValueRe "level" 2 ++ [.cls (isChar ',')] ++
    keyValueRe "message" 3 ++ [.cls (isChar (Char.ofNat 125)), .star isSpace]) .eot
  numSubexp := 3

/-- Pattern `^\[(\w+)\]\s+(.+)$`. -/
def simpleRegex : Regexp where
  re := Re.cat [.bot, .cls (isChar '['), .group 1 (.plus isWord), .cls (isChar ']'),
                .plus isSpace, .group 2 (.plus anyNotNL)] .eot
  numSubexp := 2

/-- The error value of the handlers, `fmt.Errorf("时间解析失败: %v", err)`; the text of
the wrapped `time.ParseError` is left out. -/
def timeError : String := "时间解析失败"

/-- The entry every handler builds from the timestamp and three submatches. -/
def entryOf (timestamp : time.Time) (level message raw : String) : LogEntry :=
  { Timestamp := timestamp, Level := level, Message := message, Fields := [], Raw := raw }

/-- Handler of the standard pattern. -/
def standardHandler (_now : time.Time) (submatches : List String) : Except String LogEntry :=
  match time.Parse time.layoutDateTime (strings.TrimSpace (sub submatches 1)) with
  | some timestamp =>
    .ok (entryOf timestamp (sub submatches 2) (sub submatches 3) (sub submatches 0))
  | none =>
    match time.Parse time.layoutDateTimeMilli (strings.TrimSpace (sub submatches 1)) with
    | some timestamp =>
      .ok (entryOf timestamp (sub submatches 2) (sub submatches 3) (sub submatches 0))
    | none => .error timeError

/-- Handler of the ISO 8601 pattern. -/
def isoHandler (_now : time.Time) (submatches : List String) : Except String LogEntry :=
  match time.Parse time.RFC3339 (sub submatches 1) with
  | some timestamp =>
    .ok (entryOf timestamp (sub submatches 2) (sub submatches 3) (sub submatches 0))
  | none =>
    match time.Parse time.layoutTMilli (sub submatches 1) with
    | some timestamp =>
      .ok (entryOf timestamp (sub submatches 2) (sub submatches 3) (sub submatches 0))
    | none => .error timeError

/-- Handler of the JSON pattern. -/
def jsonHandler (_now : time.Time) (submatches : List String) : Except String LogEntry :=
  match time.Parse time.RFC3339 (sub submatches 1) with
  | some timestamp =>
    .ok (entryOf timestamp (sub submatches 2) (sub submatches 3) (sub submatches 0))
  | none => .error timeError

/-- Handler of the simple pattern: the timestamp is `time.Now()`. -/
def simpleHandler (now : time.Time) (submatches : List String) : Except String LogEntry :=
  .ok (entryOf now (sub submatches 1) (sub submatches 2) (sub submatches 0))

/-- The four recognizers. -/
def standardPattern : logPattern := ⟨"standard", standardRegex, standardHandler⟩

def isoPattern : logPattern := ⟨"iso8601", isoRegex, isoHandler⟩

def jsonPattern : logPattern := ⟨"json", jsonRegex, jsonHandler⟩

def simplePattern : logPattern := ⟨"simple", simpleRegex, simpleHandler⟩

/-- Method `initPatterns`: the list of recognizers, in the order of the source. -/
def initPatterns : List logPattern := [standardPattern, isoPattern, jsonPattern, simplePattern]

/-- Function `NewLogParser`. -/
def NewLogParser : LogParser := { patterns := initPatterns }

/-- The record for a line no pattern matches. -/
def unknownEntry (now : time.Time) (line : String) : LogEntry :=
  { Timestamp := now, Level := "UNKNOWN", Message := line, Fields := [], Raw := line }

/-- The loop of `Parse` over the patterns: the handler of the first pattern that
matches gives the result; after the last one, the line itself is the message. -/
def parseWith (now : time.Time) (line : String) : List logPattern → Except String LogEntry
  | [] => .ok (unknownEntry now line)
  | p :: rest =>
    match p.regex.FindStringSubmatch line with
    | some submatches => p.handler now submatches
    | none => parseWith now line rest

/-- Method `LogParser.Parse`; `now` is what `time.Now()` returns during the call. -/
def LogParser.Parse (p : LogParser) (now : time.Time) (line : String) : Except String LogEntry :=
  parseWith now line p.patterns

/-- Layout `"2006-01-02 15:04:05.000"` of `LogEntry.String`. -/
def stampLayout : List time.Chunk := time.layoutDateTimeMilli

/-- The text `k=v` of one field, `fmt.Sprintf("%s=%s", k, v)`. -/
def fieldStr (kv : String × String) : List Char := kv.1.data ++ ['='] ++ kv.2.data

/-- Method `LogEntry.String`. -/
def LogEntry.String (e : LogEntry) : String :=
  let timestamp := e.Timestamp.Format stampLayout
  if 0 < e.Fields.length then
    "[" ++ timestamp ++ "] " ++ e.Level ++ ": " ++ e.Message ++ " " ++
      String.mk ([Char.ofNat 123] ++ strings.joinChars [',', ' '] (e.Fields.map fieldStr) ++
        [Char.ofNat 125])
  else
    "[" ++ timestamp ++ "] " ++ e.Level ++ ": " ++ e.Message

end parser

/-! ## Notions used to state the properties -/

namespace regexp

/-- The preferred match of an expression at the front of the input. -/
def first (re : Re) (atStart : Bool) (s : List Char) : Option Thread := (run re atStart s).head?

/-- An expression that cannot match without `^` holding first. -/
def Re.startsBot : Re → Bool
  | .bot => true
  | .seq a _ => a.startsBot
  | .group _ a => a.startsBot
  | _ => false

/-- An expression whose every match ends with `$` holding. -/
def Re.endsEot : Re → Bool
  | .eot => true
  | .seq _ b => b.endsEot
  | .group _ a => a.endsEot
  | _ => false

/-- Proposition `Leads re s t`: wherever the match starts, `t` is the preferred match of `re` on `s`. -/
def Leads (re : Re) (s : List Char) (t : Thread) : Prop := ∀ st, first re st s = some t

end regexp

namespace time

/-- Two decimal digits of a number below 100. -/
def two (n : Nat) : List Char := [digitChar (n / 10), digitChar n]

/-- Four decimal digits of a number below 10000. -/
def four (n : Nat) : List Char :=
  [digitChar (n / 1000), digitChar (n / 100), digitChar (n / 10), digitChar n]

/-- A fraction of a second as the patterns admit it: nothing, or a period and digits. -/
def IsFraction (frac : List Char) : Prop :=
  frac = [] ∨ ∃ d ds, frac = '.' :: d :: ds ∧ ∀ c ∈ d :: ds, isDigit c = true

/-- A calendar date and time of day, as six numbers. -/
structure Civil where
  year : Nat
  month : Nat
  day : Nat
  hour : Nat
  minute : Nat
  second : Nat

/-- Leap years of the Gregorian calendar. -/
def leapYear (y : Nat) : Bool := y % 4 = 0 && (y % 100 ≠ 0 || y % 400 = 0)

/-- The number of days of month `m` of year `y`. -/
def monthLength (y m : Nat) : Nat :=
  match m with
  | 2 => if leapYear y then 29 else 28
  | 4 => 30
  | 6 => 30
  | 9 => 30
  | 11 => 30
  | _ => 31

/-- A valid calendar date and time: a four-digit year, a month from 1 to 12, a day
of that month, and a time of day from 00:00:00 to 23:59:59. -/
def Civil.Valid (c : Civil) : Prop :=
  c.year ≤ 9999 ∧ 1 ≤ c.month ∧ c.month ≤ 12 ∧ 1 ≤ c.day ∧ c.day ≤ monthLength c.year c.month ∧
    c.hour ≤ 23 ∧ c.minute ≤ 59 ∧ c.second ≤ 59

instance (c : Civil) : Decidable c.Valid := by unfold Civil.Valid; infer_instance

/-- A date and time as RFC 3339 (section 5.6) admits it: as `Civil.Valid`, and the
second may also be 60, which stands for a leap second. -/
def Civil.ValidRFC3339 (c : Civil) : Prop :=
  c.year ≤ 9999 ∧ 1 ≤ c.month ∧ c.month ≤ 12 ∧ 1 ≤ c.day ∧ c.day ≤ monthLength c.year c.month ∧
    c.hour ≤ 23 ∧ c.minute ≤ 59 ∧ c.second ≤ 60

instance (c : Civil) : Decidable c.ValidRFC3339 := by unfold Civil.ValidRFC3339; infer_instance

/-- The text `HH:MM:SS` followed by `tail`. -/
def Civil.clockText (c : Civil) (tail : List Char) : List Char :=
  two c.hour ++ (':' :: (two c.minute ++ (':' :: (two c.second ++ tail))))

/-- The text `YYYY-MM-DD` followed by `tail`. -/
def Civil.dateText (c : Civil) (tail : List Char) : List Char :=
  four c.year ++ ('-' :: (two c.month ++ ('-' :: (two c.day ++ tail))))

/-- The text `YYYY-MM-DD<sep>HH:MM:SS<frac>`. -/
def Civil.stampText (c : Civil) (sep frac : List Char) : List Char :=
  c.dateText (sep ++ c.clockText frac)

/-- The text `YYYY-MM-DDTHH:MM:SS<frac><zone>`. -/
def Civil.isoText (c : Civil) (frac zone : List Char) : List Char :=
  c.dateText ('T' :: c.clockText (frac ++ zone))

/-- A zone designator: `Z`, or a sign with hours and minutes. -/
inductive Zone where
  | utc : Zone
  | east (hours minutes : Nat) : Zone
  | west (hours minutes : Nat) : Zone

/-- The text of a zone designator: `Z`, `+hh:mm` or `-hh:mm`. -/
def Zone.text : Zone → List Char
  | .utc => ['Z']
  | .east h m => '+' :: (two h ++ (':' :: two m))
  | .west h m => '-' :: (two h ++ (':' :: two m))

/-- An offset of at most 23 hours and 59 minutes. -/
def Zone.Valid : Zone → Prop
  | .utc => True
  | .east h m => h ≤ 23 ∧ m ≤ 59
  | .west h m => h ≤ 23 ∧ m ≤ 59

/-- The offset of a zone designator from UTC, in seconds. -/
def Zone.seconds : Zone → Int
  | .utc => 0
  | .east h m => (((h * 60 + m) * 60 : Nat) : Int)
  | .west h m => -(((h * 60 + m) * 60 : Nat) : Int)

/-- Whether the designator is `Z`. -/
def Zone.isUTC : Zone → Bool
  | .utc => true
  | _ => false

/-- The offset a sign with hours and minutes stands for; `Z` gives none. -/
def Zone.signed : Zone → Option Int
  | .utc => none
  | .east h m => some (Zone.east h m).seconds
  | .west h m => some (Zone.west h m).seconds

end time

namespace parser

open regexp

/-- The classes of the ten characters `\d{4}-\d{2}-\d{2}`. -/
def dateClasses : List (Char → Bool) :=
  [isDigit, isDigit, isDigit, isDigit, isChar '-', isDigit, isDigit, isChar '-', isDigit, isDigit]

/-- The text `<w1>"key"<w2>:<w3>"value"<w4>` followed by `tail`. -/
def keyValueText (w1 w2 w3 w4 key value tail : List Char) : List Char :=
  w1 ++ ('"' :: (key ++ ('"' :: (w2 ++ (':' :: (w3 ++ ('"' :: (value ++ ('"' :: (w4 ++ tail))))))))))

/-- A line of the JSON form: the three keys in their order with values `t`, `l` and
`m`, and the runs `sp 0`, ..., `sp 13` around the punctuation. -/
def jsonLine (sp : Nat → List Char) (t l m : List Char) : List Char :=
  sp 0 ++ (Char.ofNat 123 ::
    keyValueText (sp 1) (sp 2) (sp 3) (sp 4) "timestamp".data t (',' ::
    keyValueText (sp 5) (sp 6) (sp 7) (sp 8) "level".data l (',' ::
    keyValueText (sp 9) (sp 10) (sp 11) (sp 12) "message".data m (Char.ofNat 125 :: sp 13))))

/-- A line of the simple form: `[level]`, the run `ws` and the message. -/
def simpleLine (level ws message : List Char) : List Char :=
  '[' :: (level ++ (']' :: (ws ++ message)))

end parser

namespace regexp

/-- The numbers of the capturing groups of an expression. -/
def Re.groups : Re → List Nat
  | .group n a => n :: a.groups
  | .seq a b => a.groups ++ b.groups
  | .opt a => a.groups
  | _ => []

/-- Every match of the expression takes at least one character. -/
def NonNull (re : Re) : Prop := ∀ st s t, t ∈ run re st s → t.text ≠ []

/-- The last character of every match of the expression is in the class `q`. -/
def LastIn (q : Char → Bool) (re : Re) : Prop :=
  ∀ st s t, t ∈ run re st s → ∀ c ∈ t.text.getLast?, q c = true

/-- The first character of every match of the expression is in the class `q`. -/
def HeadIn (q : Char → Bool) (re : Re) : Prop :=
  ∀ st s t, t ∈ run re st s → ∀ c ∈ t.text.head?, q c = true

end regexp

namespace time

/-- The `w` low decimal digits of `n`, most significant first. -/
def fixed : Nat → Nat → List Char
  | 0, _ => []
  | w + 1, n => fixed w (n / 10) ++ [digitChar n]

end time

namespace parser

/-- A reading of the clock, for the worked examples. -/
def sampleNow : time.Time := ⟨2026, 11, 4, 9, 30, 15, 250000000, 0⟩

/-- The timestamp text captured by the first pattern that matches the line is read
by none of the layouts of that pattern's handler; the pattern is one of the three
with a timestamp. -/
def TimestampFails (line : String) : Prop :=
  (∃ ms, standardRegex.FindStringSubmatch line = some ms ∧
    time.Parse time.layoutDateTime (sub ms 1) = none ∧
    time.Parse time.layoutDateTimeMilli (sub ms 1) = none) ∨
  (standardRegex.FindStringSubmatch line = none ∧
    ∃ ms, isoRegex.FindStringSubmatch line = some ms ∧
      time.Parse time.RFC3339 (sub ms 1) = none ∧
      time.Parse time.layoutTMilli (sub ms 1) = none) ∨
  (standardRegex.FindStringSubmatch line = none ∧ isoRegex.FindStringSubmatch line = none ∧
    ∃ ms, jsonRegex.FindStringSubmatch line = some ms ∧
      time.Parse time.RFC3339 (sub ms 1) = none)

/-- A line of the two forms with a timestamp: the timestamp text, the run `ws1`,
`[level]`, the run `ws2` and the message. -/
def stampedLine (stamp ws1 level ws2 message : List Char) : List Char :=
  stamp ++ (ws1 ++ ('[' :: (level ++ (']' :: (ws2 ++ message)))))

end parser

/-! ## Lemmas -/

namespace regexp

theorem mem_runStar {p : Char → Bool} {s xs rest : List Char} (h : (xs, rest) ∈ runStar p s) :
    s = xs ++ rest ∧ ∀ x ∈ xs, p x = true := by
  induction s generalizing xs rest with
  | nil => simp [runStar] at h; simp [h]
  | cons c cs ih =>
    unfold runStar at h
    split at h
    · rename_i hp
      simp only [List.mem_append, List.mem_map, List.mem_singleton, Prod.mk.injEq] at h
      rcases h with ⟨tr, htr, h1, h2⟩ | ⟨h1, h2⟩
      · obtain ⟨e, hall⟩ := @ih tr.1 tr.2 htr
        subst h1; subst h2
        refine ⟨by simp [e], ?_⟩
        intro x hx
        simp only [List.mem_cons] at hx
        rcases hx with rfl | hx
        · exact hp
        · exact hall x hx
      · subst h1; subst h2; simp
    · simp only [List.mem_singleton, Prod.mk.injEq] at h
      obtain ⟨h1, h2⟩ := h
      subst h1; subst h2; simp

theorem mem_runPlus {p : Char → Bool} {s xs rest : List Char} (h : (xs, rest) ∈ runPlus p s) :
    s = xs ++ rest ∧ xs ≠ [] ∧ ∀ x ∈ xs, p x = true := by
  cases s with
  | nil => simp [runPlus] at h
  | cons c cs =>
    by_cases hp : p c = true
    · simp only [runPlus, hp, if_true, List.mem_map, Prod.mk.injEq] at h
      obtain ⟨tr, htr, h1, h2⟩ := h
      obtain ⟨e, hall⟩ := @mem_runStar p _ tr.1 tr.2 htr
      subst h1; subst h2
      refine ⟨by simp [e], by simp, ?_⟩
      intro x hx
      simp only [List.mem_cons] at hx
      rcases hx with rfl | hx
      · exact hp
      · exact hall x hx
    · simp [runPlus, hp] at h

theorem runStar_greedy (p : Char → Bool) (xs rest : List Char) (hall : ∀ x ∈ xs, p x = true)
    (hstop : ∀ c ∈ rest.head?, p c = false) :
    (runStar p (xs ++ rest)).head? = some (xs, rest) := by
  induction xs with
  | nil =>
    cases rest with
    | nil => simp [runStar]
    | cons c cs =>
      have : p c = false := hstop c (by simp)
      simp [runStar, this]
  | cons x xs ih =>
    have hx : p x = true := hall x (by simp)
    have ih := ih (fun y hy => hall y (by simp [hy]))
    simp only [List.cons_append, runStar, hx, if_true]
    cases hr : runStar p (xs ++ rest) with
    | nil => simp [hr] at ih
    | cons a l =>
      simp [hr] at ih
      simp [ih]

theorem runPlus_greedy (p : Char → Bool) (xs rest : List Char) (hne : xs ≠ [])
    (hall : ∀ x ∈ xs, p x = true) (hstop : ∀ c ∈ rest.head?, p c = false) :
    (runPlus p (xs ++ rest)).head? = some (xs, rest) := by
  cases xs with
  | nil => exact absurd rfl hne
  | cons x xs =>
    have hx : p x = true := hall x (by simp)
    have h := runStar_greedy p xs rest (fun y hy => hall y (by simp [hy])) hstop
    simp only [List.cons_append, runPlus, hx, if_true]
    cases hr : runStar p (xs ++ rest) with
    | nil => simp [hr] at h
    | cons a l =>
      simp [hr] at h
      simp [h]

theorem run_split {re : Re} {atStart : Bool} {s : List Char} {t : Thread}
    (h : t ∈ run re atStart s) : s = t.text ++ t.rest := by
  induction re generalizing atStart s t with
  | bot =>
    cases atStart <;> simp [run] at h
    simp [h]
  | eot =>
    cases s <;> simp [run] at h
    simp [h]
  | cls p =>
    cases s with
    | nil => simp [run] at h
    | cons c cs =>
      simp only [run] at h
      split at h
      · simp at h; simp [h]
      · simp at h
  | seq a b iha ihb =>
    simp only [run, List.mem_flatMap, List.mem_map] at h
    obtain ⟨t1, h1, t2, h2, rfl⟩ := h
    have e1 := iha h1
    have e2 := ihb h2
    simp [e1, e2]
  | opt a ih =>
    simp only [run, List.mem_append, List.mem_singleton] at h
    rcases h with h | h
    · exact ih h
    · simp [h]
  | star p =>
    simp only [run, List.mem_map] at h
    obtain ⟨tr, htr, rfl⟩ := h
    exact (@mem_runStar p _ tr.1 tr.2 htr).1
  | plus p =>
    simp only [run, List.mem_map] at h
    obtain ⟨tr, htr, rfl⟩ := h
    exact (@mem_runPlus p _ tr.1 tr.2 htr).1
  | group n a ih =>
    simp only [run, List.mem_map] at h
    obtain ⟨t1, h1, rfl⟩ := h
    exact ih h1 |>.trans rfl

theorem run_startsBot {re : Re} (h : re.startsBot = true) (s : List Char) : run re false s = [] := by
  induction re generalizing s with
  | bot => simp [run]
  | seq a b iha _ =>
    simp only [Re.startsBot] at h
    simp [run, iha h]
  | group n a ih =>
    simp only [Re.startsBot] at h
    simp [run, ih h]
  | _ => simp [Re.startsBot] at h

theorem run_endsEot {re : Re} (h : re.endsEot = true) {atStart : Bool} {s : List Char} {t : Thread}
    (ht : t ∈ run re atStart s) : t.rest = [] := by
  induction re generalizing atStart s t with
  | eot =>
    cases s <;> simp [run] at ht
    simp [ht]
  | seq a b _ ihb =>
    simp only [Re.endsEot] at h
    simp only [run, List.mem_flatMap, List.mem_map] at ht
    obtain ⟨t1, _, t2, h2, rfl⟩ := ht
    exact (ihb h h2 : t2.rest = [])
  | group n a ih =>
    simp only [Re.endsEot] at h
    simp only [run, List.mem_map] at ht
    obtain ⟨t1, h1, rfl⟩ := ht
    exact (ih h h1 : t1.rest = [])
  | _ => simp [Re.endsEot] at h

theorem matchAt_false_of_startsBot (r : Regexp) (h : r.re.startsBot = true) (s : List Char) :
    r.matchAt false s = none := by
  simp [Regexp.matchAt, run_startsBot h]

theorem search_false_of_startsBot (r : Regexp) (h : r.re.startsBot = true) (s : List Char) :
    r.search false s = none := by
  induction s with
  | nil => simp [Regexp.search, matchAt_false_of_startsBot r h]
  | cons c cs ih => simp [Regexp.search, matchAt_false_of_startsBot r h, ih]

/-- For a pattern that opens with `^`, the search is the match at offset 0. -/
theorem find_eq_matchAt (r : Regexp) (h : r.re.startsBot = true) (line : String) :
    r.FindStringSubmatch line = r.matchAt true line.data := by
  unfold Regexp.FindStringSubmatch
  cases hs : line.data with
  | nil => simp [Regexp.search]
  | cons c cs =>
    simp only [Regexp.search]
    cases hm : r.matchAt true (c :: cs) with
    | some m => rfl
    | none => simp [search_false_of_startsBot r h]

theorem find_eq_first (r : Regexp) (h : r.re.startsBot = true) (line : String) :
    r.FindStringSubmatch line =
      (first r.re true line.data).map
        (fun t => String.mk t.text :: groupTexts t.caps 1 r.numSubexp) := by
  rw [find_eq_matchAt r h]; rfl

theorem find_none_iff (r : Regexp) (h : r.re.startsBot = true) (line : String) :
    r.FindStringSubmatch line = none ↔ run r.re true line.data = [] := by
  rw [find_eq_first r h]
  simp [first]

/-- For a pattern between `^` and `$`, the whole match is the whole line. -/
theorem find_whole (r : Regexp) (h : r.re.startsBot = true) (h2 : r.re.endsEot = true)
    (line : String) (ms : List String) (hm : r.FindStringSubmatch line = some ms) :
    ms.getD 0 "" = line := by
  rw [find_eq_first r h] at hm
  simp only [Option.map_eq_some', first] at hm
  obtain ⟨t, ht, rfl⟩ := hm
  have hmem : t ∈ run r.re true line.data := List.mem_of_mem_head? ht
  have e := run_split hmem
  rw [run_endsEot h2 hmem, List.append_nil] at e
  simp [← e]

/-! ### The preferred match, piece by piece -/

theorem first_seq {a b : Re} {st : Bool} {s : List Char} {t1 t2 : Thread}
    (h1 : first a st s = some t1)
    (h2 : first b (st && t1.text.isEmpty) t1.rest = some t2) :
    first (.seq a b) st s = some ⟨t2.caps ++ t1.caps, t1.text ++ t2.text, t2.rest⟩ := by
  unfold first at *
  cases ha : run a st s with
  | nil => simp [ha] at h1
  | cons x xs =>
    simp only [ha, List.head?_cons, Option.some.injEq] at h1
    subst h1
    cases hb : run b (st && x.text.isEmpty) x.rest with
    | nil => simp [hb] at h2
    | cons y ys =>
      simp only [hb, List.head?_cons, Option.some.injEq] at h2
      subst h2
      simp [run, ha, hb]

theorem leads_eot : Leads .eot [] ⟨[], [], []⟩ := fun _ => by simp [first, run]

theorem leads_cls {p : Char → Bool} {b : Re} {c : Char} {cs : List Char}
    {caps : List (Nat × List Char)} {text rest : List Char}
    (hp : p c = true) (h : Leads b cs ⟨caps, text, rest⟩) :
    Leads (.seq (.cls p) b) (c :: cs) ⟨caps, c :: text, rest⟩ := by
  intro st
  have h1 : first (.cls p) st (c :: cs) = some ⟨[], [c], cs⟩ := by simp [first, run, hp]
  have := first_seq h1 (h _)
  simpa using this

theorem leads_plus {p : Char → Bool} {b : Re} {xs cs : List Char}
    {caps : List (Nat × List Char)} {text rest : List Char}
    (hne : xs ≠ []) (hall : ∀ x ∈ xs, p x = true) (hstop : ∀ c ∈ cs.head?, p c = false)
    (h : Leads b cs ⟨caps, text, rest⟩) :
    Leads (.seq (.plus p) b) (xs ++ cs) ⟨caps, xs ++ text, rest⟩ := by
  intro st
  have h1 : first (.plus p) st (xs ++ cs) = some ⟨[], xs, cs⟩ := by
    have := runPlus_greedy p xs cs hne hall hstop
    simp [first, run, List.head?_map, this]
  have := first_seq h1 (h _)
  simpa using this

theorem leads_star {p : Char → Bool} {b : Re} {xs cs : List Char}
    {caps : List (Nat × List Char)} {text rest : List Char}
    (hall : ∀ x ∈ xs, p x = true) (hstop : ∀ c ∈ cs.head?, p c = false)
    (h : Leads b cs ⟨caps, text, rest⟩) :
    Leads (.seq (.star p) b) (xs ++ cs) ⟨caps, xs ++ text, rest⟩ := by
  intro st
  have h1 : first (.star p) st (xs ++ cs) = some ⟨[], xs, cs⟩ := by
    have := runStar_greedy p xs cs hall hstop
    simp [first, run, List.head?_map, this]
  have := first_seq h1 (h _)
  simpa using this

theorem leads_group_plus {p : Char → Bool} {b : Re} {n : Nat} {xs cs : List Char}
    {caps : List (Nat × List Char)} {text rest : List Char}
    (hne : xs ≠ []) (hall : ∀ x ∈ xs, p x = true) (hstop : ∀ c ∈ cs.head?, p c = false)
    (h : Leads b cs ⟨caps, text, rest⟩) :
    Leads (.seq (.group n (.plus p)) b) (xs ++ cs) ⟨caps ++ [(n, xs)], xs ++ text, rest⟩ := by
  intro st
  have h1 : first (.group n (.plus p)) st (xs ++ cs) = some ⟨[(n, xs)], xs, cs⟩ := by
    have := runPlus_greedy p xs cs hne hall hstop
    simp [first, run, List.head?_map, this]
  have := first_seq h1 (h _)
  simpa using this

theorem leads_group_plus_eot {p : Char → Bool} {n : Nat} {xs : List Char}
    (hne : xs ≠ []) (hall : ∀ x ∈ xs, p x = true) :
    Leads (.seq (.group n (.plus p)) .eot) xs ⟨[(n, xs)], xs, []⟩ := by
  have := @leads_group_plus p .eot n xs [] [] [] [] hne hall (by simp) leads_eot
  simpa using this

theorem leads_star_eot {p : Char → Bool} {xs : List Char} (hall : ∀ x ∈ xs, p x = true) :
    Leads (.seq (.star p) .eot) xs ⟨[], xs, []⟩ := by
  have := @leads_star p .eot xs [] [] [] [] hall (by simp) leads_eot
  simpa using this

theorem first_bot_seq {b : Re} {s : List Char} {t : Thread} (h : Leads b s t) :
    first (.seq .bot b) true s = some t := by
  have h1 : first .bot true s = some ⟨[], [], s⟩ := by simp [first, run]
  have := first_seq h1 (h _)
  simpa using this

theorem cat_append (l1 l2 : List Re) (z : Re) : Re.cat (l1 ++ l2) z = Re.cat l1 (Re.cat l2 z) := by
  induction l1 with
  | nil => rfl
  | cons r rs ih => simp [Re.cat, ih]

theorem leads_chars (k : List Char) (b : Re) (cs : List Char)
    {caps : List (Nat × List Char)} {text rest : List Char}
    (h : Leads b cs ⟨caps, text, rest⟩) :
    Leads (Re.cat (k.map (fun x => Re.cls (isChar x))) b) (k ++ cs) ⟨caps, k ++ text, rest⟩ := by
  induction k with
  | nil => simpa [Re.cat] using h
  | cons x xs ih =>
    simp only [List.map_cons, Re.cat, List.cons_append]
    exact leads_cls (by simp [isChar]) ih

end regexp

namespace time

theorem digitChar_toNat (n : Nat) : (digitChar n).toNat = 48 + n % 10 := by
  have h : n % 10 < 10 := Nat.mod_lt _ (by decide)
  unfold digitChar
  generalize n % 10 = k at h
  interval_cases k <;> rfl

theorem isDigit_digitChar (n : Nat) : isDigit (digitChar n) = true := by
  have h : n % 10 < 10 := Nat.mod_lt _ (by decide)
  simp [isDigit, digitChar_toNat]
  omega

theorem digitVal_digitChar (n : Nat) : digitVal (digitChar n) = n % 10 := by
  simp [digitVal, digitChar_toNat]

theorem getnum_two (n : Nat) (hn : n < 100) (rest : List Char) (fixed : Bool) :
    getnum (two n ++ rest) fixed = some (n, rest) := by
  simp [two, getnum, isDigit_digitChar, digitVal_digitChar]
  omega

theorem leadingInt_digits (ds : List Char) (hd : ∀ c ∈ ds, isDigit c = true) (x : Nat) :
    ∃ v, leadingInt x ds = (v, []) := by
  induction ds generalizing x with
  | nil => exact ⟨x, rfl⟩
  | cons c cs ih =>
    simp only [leadingInt, hd c (by simp), if_true]
    exact ih (fun y hy => hd y (by simp [hy])) _

theorem leadingInt_stop (x : Nat) (c : Char) (cs : List Char) (h : isDigit c = false) :
    leadingInt x (c :: cs) = (x, c :: cs) := by simp [leadingInt, h]

theorem atoi_four (n : Nat) (hn : n < 10000) : atoi (four n) = some (n : Int) := by
  have h1 : (digitChar (n / 1000)).toNat ≠ 45 := by rw [digitChar_toNat]; omega
  have h2 : (digitChar (n / 1000)).toNat ≠ 43 := by rw [digitChar_toNat]; omega
  simp only [atoi, four, h1, h2, if_false, leadingInt, isDigit_digitChar, if_true,
    digitVal_digitChar]
  simp only [Option.some.injEq, Bool.false_eq_true, if_false]
  congr 1
  omega

theorem atoi_digits (ds : List Char) (hd : ∀ c ∈ ds, isDigit c = true) :
    ∃ v : Nat, atoi ds = some (v : Int) := by
  cases ds with
  | nil => exact ⟨0, by simp [atoi, leadingInt]⟩
  | cons c cs =>
    have hc := hd c (by simp)
    have h1 : c.toNat ≠ 45 := by
      intro h; simp [isDigit, h] at hc
    have h2 : c.toNat ≠ 43 := by
      intro h; simp [isDigit, h] at hc
    obtain ⟨v, hv⟩ := leadingInt_digits (c :: cs) hd 0
    exact ⟨v, by simp [atoi, h1, h2, hv]⟩

theorem digitRun_all (ds rest : List Char) (hd : ∀ c ∈ ds, isDigit c = true)
    (hstop : ∀ c ∈ rest.head?, isDigit c = false) : digitRun (ds ++ rest) = ds.length := by
  induction ds with
  | nil =>
    cases rest with
    | nil => rfl
    | cons c cs => simp [digitRun, hstop c (by simp)]
  | cons c cs ih =>
    simp [digitRun, hd c (by simp), ih (fun y hy => hd y (by simp [hy]))]

theorem parseNanoseconds_fraction (d : Char) (ds rest : List Char)
    (hd : ∀ c ∈ d :: ds, isDigit c = true) :
    ∃ ns, parseNanoseconds ('.' :: d :: ds ++ rest) (2 + ds.length) = some ns := by
  have hcp : commaOrPeriod '.' = true := by decide
  have htake : ∀ c ∈ ((('.' :: d :: ds ++ rest).take (min (2 + ds.length) 10)).drop 1),
      isDigit c = true := by
    intro c hc
    have h1 : (('.' :: d :: ds ++ rest).take (min (2 + ds.length) 10)).drop 1
        = (d :: ds).take (min (2 + ds.length) 10 - 1) := by
      have : min (2 + ds.length) 10 = (min (2 + ds.length) 10 - 1) + 1 := by omega
      rw [this]
      simp only [List.cons_append, List.take_succ_cons, List.drop_succ_cons, List.drop_zero]
      rw [← List.cons_append, List.take_append_of_le_length]
      · simp
      · simp; omega
    rw [h1] at hc
    exact hd c (List.mem_of_mem_take hc)
  obtain ⟨v, hv⟩ := atoi_digits _ htake
  refine ⟨v * 10 ^ (10 - min (2 + ds.length) 10), ?_⟩
  simp only [parseNanoseconds, List.cons_append, hcp]
  simp only [List.cons_append, List.drop_one] at hv
  simp [hv]

theorem skip_char (c : Char) (hc : c.toNat ≠ 32) (rest : List Char) :
    skip (c :: rest) [c] = some rest := by
  simp [skip, skipLoop, hc]

theorem cutspace_run (sep rest : List Char) (hsep : ∀ c ∈ sep, c.toNat = 32)
    (hrest : ∀ c ∈ rest.head?, c.toNat ≠ 32) : cutspace (sep ++ rest) = rest := by
  induction sep with
  | nil =>
    cases rest with
    | nil => rfl
    | cons c cs => simp [cutspace, hrest c (by simp)]
  | cons c cs ih =>
    simp [cutspace, hsep c (by simp), ih (fun y hy => hsep y (by simp [hy]))]

theorem skip_spaces (sep rest : List Char) (hne : sep ≠ []) (hsep : ∀ c ∈ sep, c.toNat = 32)
    (hrest : ∀ c ∈ rest.head?, c.toNat ≠ 32) : skip (sep ++ rest) [' '] = some rest := by
  cases sep with
  | nil => exact absurd rfl hne
  | cons c cs =>
    have hc : c.toNat = 32 := hsep c (by simp)
    have := cutspace_run cs rest (fun y hy => hsep y (by simp [hy])) hrest
    have h32 : (' ' : Char).toNat = 32 := by decide
    simp [skip, skipLoop, hc, this, cutspace, h32]

theorem loop_year (n : Nat) (hn : n < 10000) (layout : List Chunk) (st : Parsed)
    (rest : List Char) :
    parseLoop (.stdLongYear :: layout) st (four n ++ rest) =
      parseLoop layout { st with year := (n : Int) } rest := by
  have h := atoi_four n hn
  simp only [four] at h
  simp [parseLoop, four, isDigit_digitChar, h]

theorem loop_lit (c : Char) (hc : c.toNat ≠ 32) (layout : List Chunk) (st : Parsed)
    (rest : List Char) :
    parseLoop (.lit [c] :: layout) st (c :: rest) = parseLoop layout st rest := by
  simp [parseLoop, skip_char c hc]

theorem loop_space (sep rest : List Char) (hne : sep ≠ []) (hsep : ∀ c ∈ sep, c.toNat = 32)
    (hrest : ∀ c ∈ rest.head?, c.toNat ≠ 32) (layout : List Chunk) (st : Parsed) :
    parseLoop (.lit [' '] :: layout) st (sep ++ rest) = parseLoop layout st rest := by
  simp [parseLoop, skip_spaces sep rest hne hsep hrest]

theorem loop_month (n : Nat) (h1 : 1 ≤ n) (h2 : n ≤ 12) (layout : List Chunk) (st : Parsed)
    (rest : List Char) :
    parseLoop (.stdZeroMonth :: layout) st (two n ++ rest) =
      parseLoop layout { st with month := some n } rest := by
  have : ¬ (n = 0 ∨ 12 < n) := by omega
  simp [parseLoop, getnum_two n (by omega), this]

theorem loop_day (n : Nat) (h : n < 100) (layout : List Chunk) (st : Parsed)
    (rest : List Char) :
    parseLoop (.stdZeroDay :: layout) st (two n ++ rest) =
      parseLoop layout { st with day := some n } rest := by
  simp [parseLoop, getnum_two n h]

theorem loop_hour (n : Nat) (h : n ≤ 23) (layout : List Chunk) (st : Parsed)
    (rest : List Char) :
    parseLoop (.stdHour :: layout) st (two n ++ rest) =
      parseLoop layout { st with hour := n } rest := by
  have : ¬ 24 ≤ n := by omega
  simp [parseLoop, getnum_two n (by omega), this]

theorem loop_minute (n : Nat) (h : n ≤ 59) (layout : List Chunk) (st : Parsed)
    (rest : List Char) :
    parseLoop (.stdZeroMinute :: layout) st (two n ++ rest) =
      parseLoop layout { st with min := n } rest := by
  have : ¬ 60 ≤ n := by omega
  simp [parseLoop, getnum_two n (by omega), this]

/-- Seconds followed by text that is not a fraction: nothing more is read. -/
theorem loop_second_plain (n : Nat) (h : n ≤ 59) (layout : List Chunk) (st : Parsed)
    (rest : List Char) (hrest : ∀ c ∈ rest.head?, commaOrPeriod c = false) :
    parseLoop (.stdZeroSecond :: layout) st (two n ++ rest) =
      parseLoop layout { st with sec := n } rest := by
  have : ¬ 60 ≤ n := by omega
  have hnil := getnum_two n (by omega) [] true
  rw [List.append_nil] at hnil
  rcases rest with _ | ⟨a, _ | ⟨b, more⟩⟩
  · simp [parseLoop, hnil, this]
  · simp [parseLoop, getnum_two n (by omega), this]
  · have ha : commaOrPeriod a = false := hrest a (by simp)
    simp [parseLoop, getnum_two n (by omega), this, ha]

/-- Seconds followed by a fraction that the layout does not announce: the fraction is read too. -/
theorem loop_second_fraction (n : Nat) (h : n ≤ 59) (layout : List Chunk) (st : Parsed)
    (d : Char) (ds rest : List Char) (hd : ∀ c ∈ d :: ds, isDigit c = true)
    (hrest : ∀ c ∈ rest.head?, isDigit c = false)
    (hl : ((nextStd layout).map Chunk.isFrac).getD false = false) :
    ∃ ns, parseLoop (.stdZeroSecond :: layout) st (two n ++ ('.' :: d :: ds ++ rest)) =
      parseLoop layout { st with sec := n, nsec := ns } rest := by
  have h60 : ¬ 60 ≤ n := by omega
  obtain ⟨ns, hns⟩ := parseNanoseconds_fraction d ds rest hd
  refine ⟨ns, ?_⟩
  have hcp : commaOrPeriod '.' = true := by decide
  have hrun := digitRun_all ds rest (fun c hc => hd c (by simp [hc])) hrest
  have hdrop : List.drop (2 + ds.length) ('.' :: d :: (ds ++ rest)) = rest := by
    have : 2 + ds.length = ds.length + 1 + 1 := by omega
    rw [this]; simp
  simp only [List.cons_append] at hns
  simp [parseLoop, getnum_two n (by omega), h60, hcp, hd d (by simp), hl, hrun, hns, hdrop]

/-- Seconds followed by a fraction that the layout announces: the fraction is left for the next field. -/
theorem loop_second_announced (n : Nat) (h : n ≤ 59) (layout : List Chunk) (st : Parsed)
    (rest : List Char) (hl : ((nextStd layout).map Chunk.isFrac).getD false = true) :
    parseLoop (.stdZeroSecond :: layout) st (two n ++ rest) =
      parseLoop layout { st with sec := n } rest := by
  have h60 : ¬ 60 ≤ n := by omega
  have hnil := getnum_two n (by omega) [] true
  rw [List.append_nil] at hnil
  rcases rest with _ | ⟨a, _ | ⟨b, more⟩⟩
  · simp [parseLoop, hnil, h60]
  · simp [parseLoop, getnum_two n (by omega), h60]
  · simp [parseLoop, getnum_two n (by omega), h60, hl]

theorem loop_milli (a b c : Char) (ha : isDigit a = true) (hb : isDigit b = true)
    (hc : isDigit c = true) (layout : List Chunk) (st : Parsed) (rest : List Char) :
    ∃ ns, parseLoop (.stdFracSecond0 3 :: layout) st ('.' :: a :: b :: c :: rest) =
      parseLoop layout { st with nsec := ns } rest := by
  have hd : ∀ x ∈ [a, b, c], isDigit x = true := by
    intro x hx
    simp at hx
    rcases hx with rfl | rfl | rfl <;> assumption
  obtain ⟨v, hv⟩ := atoi_digits [a, b, c] hd
  have hcp : commaOrPeriod '.' = true := by decide
  refine ⟨v * 10 ^ 6, ?_⟩
  have h1 : ¬ (rest.length + 1 + 1 + 1 + 1 < 4) := by omega
  have h2 : ¬ ((v : Int) < 0) := by omega
  simp [parseLoop, parseNanoseconds, hcp, hv, h1, h2]

theorem loop_zone_utc (layout : List Chunk) (st : Parsed) (rest : List Char) :
    parseLoop (.stdISO8601ColonTZ :: layout) st ('Z' :: rest) =
      parseLoop layout { st with utc := true } rest := by
  have : ('Z' : Char).toNat = 90 := by decide
  simp [parseLoop, parseZone, this]

theorem daysIn_eq (y m : Nat) (h1 : 1 ≤ m) (h2 : m ≤ 12) : daysIn m (y : Int) = monthLength y m := by
  have hl : isLeap (y : Int) = leapYear y := by
    simp only [isLeap, leapYear]
    congr 1
    · congr 1; apply propext; omega
    · congr 1
      · congr 1; apply propext; omega
      · congr 1; apply propext; omega
  interval_cases m <;> simp [daysIn, monthLength, hl]

theorem two_head (n : Nat) (tail : List Char) :
    (two n ++ tail).head? = some (digitChar (n / 10)) := rfl

theorem parse_stamp (c : Civil) (hv : c.Valid) (sep frac : List Char) (hne : sep ≠ [])
    (hsep : ∀ x ∈ sep, x.toNat = 32) (hfrac : IsFraction frac) :
    ∃ ns, Parse layoutDateTime (String.mk (c.stampText sep frac)) =
      some ⟨c.year, c.month, c.day, c.hour, c.minute, c.second, ns, 0⟩ := by
  obtain ⟨hy, hm1, hm2, hd1, hd2, hh, hmi, hs⟩ := hv
  have hdm : monthLength c.year c.month ≤ 31 := by
    unfold monthLength; split <;> try split
    all_goals omega
  have hhead : ∀ x ∈ (c.clockText frac).head?, x.toNat ≠ 32 := by
    intro x hx
    simp only [Civil.clockText, two_head, Option.mem_def, Option.some.injEq] at hx
    subst hx
    rw [digitChar_toNat]; omega
  have hdays := daysIn_eq c.year c.month hm1 hm2
  have hfin : ∀ (ns : Nat), finish ⟨(c.year : Int), some c.month, some c.day, c.hour, c.minute,
      c.second, ns, false, none⟩ = some ⟨c.year, c.month, c.day, c.hour, c.minute, c.second, ns, 0⟩ := by
    intro ns
    have h1 : ¬ c.day < 1 := by omega
    have h2 : ¬ monthLength c.year c.month < c.day := by omega
    simp [finish, hdays, h1, h2]
  unfold Parse layoutDateTime Civil.stampText Civil.dateText
  simp only []
  rw [loop_year c.year (by omega), loop_lit '-' (by decide), loop_month c.month hm1 hm2,
    loop_lit '-' (by decide), loop_day c.day (by omega), loop_space sep _ hne hsep hhead]
  unfold Civil.clockText
  rw [loop_hour c.hour hh, loop_lit ':' (by decide), loop_minute c.minute hmi,
    loop_lit ':' (by decide)]
  rcases hfrac with rfl | ⟨d, ds, rfl, hds⟩
  · rw [loop_second_plain c.second hs _ _ [] (by simp)]
    exact ⟨0, by simpa [parseLoop] using hfin 0⟩
  · obtain ⟨ns, hns⟩ := loop_second_fraction c.second hs [] ⟨(c.year : Int), some c.month,
      some c.day, c.hour, c.minute, 0, 0, false, none⟩ d ds [] hds (by simp) (by simp [nextStd])
    rw [List.append_nil] at hns
    rw [hns]
    exact ⟨ns, by simpa [parseLoop] using hfin ns⟩

theorem finish_valid (c : Civil) (hv : c.Valid) (ns : Nat) (utc : Bool) (zone : Option Int) :
    finish ⟨(c.year : Int), some c.month, some c.day, c.hour, c.minute, c.second, ns, utc, zone⟩ =
      some ⟨c.year, c.month, c.day, c.hour, c.minute, c.second, ns,
        if utc then 0 else zone.getD 0⟩ := by
  obtain ⟨hy, hm1, hm2, hd1, hd2, hh, hmi, hs⟩ := hv
  have hdays := daysIn_eq c.year c.month hm1 hm2
  have h1 : ¬ c.day < 1 := by omega
  have h2 : ¬ monthLength c.year c.month < c.day := by omega
  simp [finish, hdays, h1, h2]

/-- The fields up to the minutes of a text with a `T` are read alike by both layouts with a `T`. -/
theorem loop_iso_front (c : Civil) (hv : c.Valid) (tail : List Char) (layout : List Chunk) :
    parseLoop ([.stdLongYear, .lit ['-'], .stdZeroMonth, .lit ['-'], .stdZeroDay, .lit ['T'],
        .stdHour, .lit [':'], .stdZeroMinute, .lit [':']] ++ layout) {}
      (c.dateText ('T' :: (two c.hour ++ (':' :: (two c.minute ++ (':' :: tail)))))) =
    parseLoop layout ⟨(c.year : Int), some c.month, some c.day, c.hour, c.minute, 0, 0, false, none⟩
      tail := by
  obtain ⟨hy, hm1, hm2, hd1, hd2, hh, hmi, hs⟩ := hv
  have hdm : monthLength c.year c.month ≤ 31 := by
    unfold monthLength; split <;> try split
    all_goals omega
  unfold Civil.dateText
  simp only [List.cons_append, List.nil_append]
  rw [loop_year c.year (by omega), loop_lit '-' (by decide), loop_month c.month hm1 hm2,
    loop_lit '-' (by decide), loop_day c.day (by omega), loop_lit 'T' (by decide),
    loop_hour c.hour hh, loop_lit ':' (by decide), loop_minute c.minute hmi,
    loop_lit ':' (by decide)]

theorem loop_zone (z : Zone) (hz : z.Valid) (y : Int) (mo d : Option Nat) (h mi s ns : Nat) :
    parseLoop [.stdISO8601ColonTZ] ⟨y, mo, d, h, mi, s, ns, false, none⟩ z.text =
      some ⟨y, mo, d, h, mi, s, ns, z.isUTC, z.signed⟩ := by
  cases z with
  | utc =>
    simp only [Zone.text]
    rw [loop_zone_utc]
    simp [parseLoop, Zone.isUTC, Zone.signed]
  | east hr mn =>
    obtain ⟨hh, hm⟩ := hz
    have h1 : ¬ 24 < hr := by omega
    have h2 : ¬ 60 < mn := by omega
    have g1 := getnum_two hr (by omega) [] true
    have g2 := getnum_two mn (by omega) [] true
    simp only [two, List.cons_append, List.nil_append] at g1 g2
    have e1 : ('+' : Char).toNat = 43 := by decide
    have e2 : (':' : Char).toNat = 58 := by decide
    simp [Zone.text, two, parseLoop, parseZone, g1, g2, h1, h2, e1, e2, Zone.seconds,
      Zone.isUTC, Zone.signed]
  | west hr mn =>
    obtain ⟨hh, hm⟩ := hz
    have h1 : ¬ 24 < hr := by omega
    have h2 : ¬ 60 < mn := by omega
    have g1 := getnum_two hr (by omega) [] true
    have g2 := getnum_two mn (by omega) [] true
    simp only [two, List.cons_append, List.nil_append] at g1 g2
    have e1 : ('-' : Char).toNat = 45 := by decide
    have e2 : (':' : Char).toNat = 58 := by decide
    simp [Zone.text, two, parseLoop, parseZone, g1, g2, h1, h2, e1, e2, Zone.seconds,
      Zone.isUTC, Zone.signed]

theorem zone_head (z : Zone) : ∀ x ∈ z.text.head?, commaOrPeriod x = false ∧ isDigit x = false := by
  intro x hx
  cases z <;> simp [Zone.text] at hx <;> subst hx <;> decide

/-- Layout RFC3339 reads every valid date and time with a fraction or none and a zone designator. -/
theorem parse_rfc3339 (c : Civil) (hv : c.Valid) (frac : List Char) (hfrac : IsFraction frac)
    (z : Zone) (hz : z.Valid) :
    ∃ ns, Parse RFC3339 (String.mk (c.isoText frac z.text)) =
      some ⟨c.year, c.month, c.day, c.hour, c.minute, c.second, ns, z.seconds⟩ := by
  have hs : c.second ≤ 59 := hv.2.2.2.2.2.2.2
  have hfront := loop_iso_front c hv (two c.second ++ (frac ++ z.text))
    [.stdZeroSecond, .stdISO8601ColonTZ]
  have hoff : ∀ ns, finish ⟨(c.year : Int), some c.month, some c.day, c.hour, c.minute,
      c.second, ns, z.isUTC, z.signed⟩ =
      some ⟨c.year, c.month, c.day, c.hour, c.minute, c.second, ns, z.seconds⟩ := by
    intro ns
    rw [finish_valid c hv]
    cases z <;> simp [Zone.seconds, Zone.isUTC, Zone.signed]
  unfold Parse RFC3339 Civil.isoText Civil.clockText
  simp only [List.cons_append, List.nil_append] at hfront
  simp only []
  rw [hfront]
  rcases hfrac with rfl | ⟨d, ds, rfl, hds⟩
  · rw [List.nil_append, loop_second_plain c.second hs _ _ _ (fun x hx => (zone_head z x hx).1)]
    simp only []
    rw [loop_zone z hz]
    exact ⟨0, hoff 0⟩
  · obtain ⟨ns, hns⟩ := loop_second_fraction c.second hs [.stdISO8601ColonTZ]
      ⟨(c.year : Int), some c.month, some c.day, c.hour, c.minute, 0, 0, false, none⟩ d ds z.text
      hds (fun x hx => (zone_head z x hx).2) (by simp [nextStd, Chunk.isFrac])
    rw [hns]
    simp only []
    rw [loop_zone z hz]
    exact ⟨ns, hoff ns⟩

/-- The layout with `.000` reads every valid date and time with a fraction of three digits and no zone. -/
theorem parse_tmilli (c : Civil) (hv : c.Valid) (a b d : Char) (ha : isDigit a = true)
    (hb : isDigit b = true) (hd : isDigit d = true) :
    ∃ ns, Parse layoutTMilli (String.mk (c.isoText ['.', a, b, d] [])) =
      some ⟨c.year, c.month, c.day, c.hour, c.minute, c.second, ns, 0⟩ := by
  have hs : c.second ≤ 59 := hv.2.2.2.2.2.2.2
  have hfront := loop_iso_front c hv (two c.second ++ ['.', a, b, d])
    [.stdZeroSecond, .stdFracSecond0 3]
  unfold Parse layoutTMilli Civil.isoText Civil.clockText
  simp only [List.cons_append, List.nil_append, List.append_nil] at hfront ⊢
  rw [hfront, loop_second_announced c.second hs _ _ _ (by simp [nextStd, Chunk.isFrac])]
  obtain ⟨ns, hns⟩ := loop_milli a b d ha hb hd []
    ⟨(c.year : Int), some c.month, some c.day, c.hour, c.minute, c.second, 0, false, none⟩ []
  rw [hns]
  refine ⟨ns, ?_⟩
  simp only [parseLoop, List.isEmpty_nil, if_true]
  rw [finish_valid c hv]
  simp

end time

namespace strings

theorem trim_keeps (s : List Char) (b : Char) (h1 : ∀ c ∈ (s ++ [b]).head?, IsSpace c = false)
    (h2 : IsSpace b = false) : trimSpaceChars (s ++ [b]) = s ++ [b] := by
  have e1 : (s ++ [b]).dropWhile IsSpace = s ++ [b] := by
    cases s with
    | nil => simp [List.dropWhile, h2]
    | cons c cs =>
      have := h1 c (by simp)
      simp [List.dropWhile, this]
  simp [trimSpaceChars, e1, List.dropWhile, h2]

end strings

namespace time

theorem isSpace_digitChar (n : Nat) : strings.IsSpace (digitChar n) = false := by
  have h := digitChar_toNat n
  have : n % 10 < 10 := Nat.mod_lt _ (by decide)
  simp only [strings.IsSpace, h]
  simp
  omega

theorem isSpace_of_isDigit (c : Char) (h : isDigit c = true) : strings.IsSpace c = false := by
  simp only [isDigit, Bool.and_eq_true, decide_eq_true_eq] at h
  simp only [strings.IsSpace]
  simp
  omega

/-- The timestamp text starts and ends with a digit, so `TrimSpace` leaves it as it is. -/
theorem trim_stampText (c : Civil) (sep frac : List Char) (hfrac : IsFraction frac) :
    strings.TrimSpace (String.mk (c.stampText sep frac)) = String.mk (c.stampText sep frac) := by
  have key : ∃ l b, c.stampText sep frac = l ++ [b] ∧ strings.IsSpace b = false ∧
      ∀ x ∈ (l ++ [b]).head?, strings.IsSpace x = false := by
    have hhead : ∀ tl, ∀ x ∈ (c.stampText sep tl).head?, strings.IsSpace x = false := by
      intro tl x hx
      simp [Civil.stampText, Civil.dateText, four] at hx
      subst hx
      exact isSpace_digitChar _
    rcases hfrac with rfl | ⟨d, ds, rfl, hds⟩
    · refine ⟨c.dateText (sep ++ (two c.hour ++ (':' :: (two c.minute ++ (':' ::
        [digitChar (c.second / 10)]))))), digitChar c.second, ?_, isSpace_digitChar _, ?_⟩
      · simp [Civil.stampText, Civil.dateText, Civil.clockText, two]
      · have e : c.dateText (sep ++ (two c.hour ++ (':' :: (two c.minute ++ (':' ::
          [digitChar (c.second / 10)]))))) ++ [digitChar c.second] = c.stampText sep [] := by
          simp [Civil.stampText, Civil.dateText, Civil.clockText, two]
        rw [e]; exact hhead []
    · have hne : d :: ds ≠ [] := by simp
      refine ⟨c.dateText (sep ++ (two c.hour ++ (':' :: (two c.minute ++ (':' ::
        (two c.second ++ '.' :: (d :: ds).dropLast)))))), (d :: ds).getLast hne, ?_,
        isSpace_of_isDigit _ (hds _ (List.getLast_mem hne)), ?_⟩
      · have := List.dropLast_append_getLast hne
        simp only [Civil.stampText, Civil.dateText, Civil.clockText, List.append_assoc,
          List.cons_append, this]
      · have e : c.dateText (sep ++ (two c.hour ++ (':' :: (two c.minute ++ (':' ::
          (two c.second ++ '.' :: (d :: ds).dropLast)))))) ++ [(d :: ds).getLast hne]
            = c.stampText sep ('.' :: d :: ds) := by
          have := List.dropLast_append_getLast hne
          simp only [Civil.stampText, Civil.dateText, Civil.clockText, List.append_assoc,
            List.cons_append, this]
        rw [e]; exact hhead _
  obtain ⟨l, b, e, hb, hh⟩ := key
  simp only [strings.TrimSpace, e, strings.trim_keeps l b hh hb]

end time

namespace regexp

theorem run_seq_nil {a b : Re} {st : Bool} {s : List Char} (h : run a st s = []) :
    run (.seq a b) st s = [] := by simp [run, h]

theorem run_group_nil {a : Re} {n : Nat} {st : Bool} {s : List Char} (h : run a st s = []) :
    run (.group n a) st s = [] := by simp [run, h]

theorem run_bot_seq_nil {b : Re} {s : List Char} (h : run b true s = []) :
    run (.seq .bot b) true s = [] := by simp [run, h]

theorem run_cls_nil {p : Char → Bool} {st : Bool} {s : List Char}
    (h : ∀ c ∈ s.head?, p c = false) : run (.cls p) st s = [] := by
  cases s with
  | nil => simp [run]
  | cons c cs => simp [run, h c (by simp)]

theorem run_plus_nil {p : Char → Bool} {st : Bool} {s : List Char}
    (h : ∀ c ∈ s.head?, p c = false) : run (.plus p) st s = [] := by
  cases s with
  | nil => simp [run, runPlus]
  | cons c cs => simp [run, runPlus, h c (by simp)]

theorem run_star_seq_nil {p : Char → Bool} {b : Re} {st : Bool} {s : List Char}
    (h : ∀ c ∈ s.head?, p c = false) (hb : ∀ st, run b st s = []) :
    run (.seq (.star p) b) st s = [] := by
  cases s with
  | nil => simp [run, runStar, hb]
  | cons c cs => simp [run, runStar, h c (by simp), hb]

/-- A pattern that opens with classes does not match when what follows the
characters they take does not match. -/
theorem run_classes_nil (ps : List (Char → Bool)) (z : Re) (st : Bool) (s : List Char)
    (h : ∀ st, run z st (s.drop ps.length) = []) :
    run (Re.cat (ps.map Re.cls) z) st s = [] := by
  induction ps generalizing st s with
  | nil => simpa [Re.cat] using h st
  | cons p ps ih =>
    cases s with
    | nil => exact run_seq_nil (by simp [run])
    | cons c cs =>
      have := ih false cs (by simpa using h)
      simp only [List.map_cons, Re.cat, run]
      split
      · simp [this]
      · simp

end regexp

namespace parser

open regexp

theorem standard_startsBot : standardRegex.re.startsBot = true := rfl

theorem iso_startsBot : isoRegex.re.startsBot = true := rfl

theorem json_startsBot : jsonRegex.re.startsBot = true := rfl

theorem simple_startsBot : simpleRegex.re.startsBot = true := rfl

theorem standard_endsEot : standardRegex.re.endsEot = true := rfl

theorem iso_endsEot : isoRegex.re.endsEot = true := rfl

theorem json_endsEot : jsonRegex.re.endsEot = true := rfl

theorem simple_endsEot : simpleRegex.re.endsEot = true := rfl

theorem dateRe_eq : dateRe = dateClasses.map Re.cls := rfl

theorem standard_head (s : List Char) (h : ∀ c ∈ s.head?, isDigit c = false) :
    run standardRegex.re true s = [] := by
  apply run_bot_seq_nil
  apply run_seq_nil
  apply run_group_nil
  apply run_seq_nil
  exact run_cls_nil h

theorem iso_head (s : List Char) (h : ∀ c ∈ s.head?, isDigit c = false) :
    run isoRegex.re true s = [] := by
  apply run_bot_seq_nil
  apply run_seq_nil
  apply run_group_nil
  apply run_seq_nil
  exact run_cls_nil h

theorem json_head (s : List Char)
    (h : ∀ c ∈ s.head?, isSpace c = false ∧ c.toNat ≠ 123) : run jsonRegex.re true s = [] := by
  apply run_bot_seq_nil
  apply run_star_seq_nil (fun c hc => (h c hc).1)
  intro st
  apply run_seq_nil
  apply run_cls_nil
  intro c hc
  have := (h c hc).2
  simp only [isChar, decide_eq_false_iff_not]
  intro e
  apply this
  rw [e]; decide

theorem simple_head (s : List Char) (h : ∀ c ∈ s.head?, c.toNat ≠ 91) :
    run simpleRegex.re true s = [] := by
  apply run_bot_seq_nil
  apply run_seq_nil
  apply run_cls_nil
  intro c hc
  have := h c hc
  simp only [isChar, decide_eq_false_iff_not]
  intro e
  apply this
  rw [e]; decide

theorem standard_eleventh (s : List Char) (h : ∀ c ∈ (s.drop 10).head?, isSpace c = false) :
    run standardRegex.re true s = [] := by
  apply run_bot_seq_nil
  apply run_seq_nil
  apply run_group_nil
  unfold standardStampRe
  rw [List.append_assoc, List.append_assoc, cat_append, dateRe_eq]
  apply run_classes_nil
  intro st
  exact run_seq_nil (run_plus_nil h)

theorem iso_eleventh (s : List Char) (h : ∀ c ∈ (s.drop 10).head?, c.toNat ≠ 84) :
    run isoRegex.re true s = [] := by
  apply run_bot_seq_nil
  apply run_seq_nil
  apply run_group_nil
  unfold isoStampRe
  rw [List.append_assoc, List.append_assoc, cat_append, dateRe_eq]
  apply run_classes_nil
  intro st
  apply run_seq_nil
  apply run_cls_nil
  intro c hc
  have := h c hc
  simp only [isChar, decide_eq_false_iff_not]
  intro e
  apply this
  rw [e]; decide

/-- No text is matched by two of the four patterns. -/
theorem patterns_exclusive (s : List Char) :
    (run standardRegex.re true s = [] ∨ run isoRegex.re true s = []) ∧
    (run standardRegex.re true s = [] ∨ run jsonRegex.re true s = []) ∧
    (run standardRegex.re true s = [] ∨ run simpleRegex.re true s = []) ∧
    (run isoRegex.re true s = [] ∨ run jsonRegex.re true s = []) ∧
    (run isoRegex.re true s = [] ∨ run simpleRegex.re true s = []) ∧
    (run jsonRegex.re true s = [] ∨ run simpleRegex.re true s = []) := by
  have h11 : run standardRegex.re true s = [] ∨ run isoRegex.re true s = [] := by
    by_cases h : ∀ c ∈ (s.drop 10).head?, isSpace c = false
    · exact Or.inl (standard_eleventh s h)
    · right
      apply iso_eleventh
      intro c hc e
      apply h
      intro c2 hc2
      have : c2 = c := by
        rw [Option.mem_def] at hc hc2
        rw [hc] at hc2
        exact (Option.some.inj hc2).symm
      subst this
      simp [isSpace, e]
  cases hs : s.head? with
  | none =>
    have h1 := standard_head s (by simp [hs])
    have h2 := iso_head s (by simp [hs])
    have h3 := json_head s (by simp [hs])
    exact ⟨h11, Or.inl h1, Or.inl h1, Or.inl h2, Or.inl h2, Or.inl h3⟩
  | some c =>
    by_cases hd : isDigit c = true
    · have hnum : 48 ≤ c.toNat ∧ c.toNat ≤ 57 := by
        simpa [isDigit] using hd
      have h3 : run jsonRegex.re true s = [] := by
        apply json_head
        simp only [hs, Option.mem_def, Option.some.injEq, forall_eq']
        refine ⟨?_, by omega⟩
        simp only [isSpace, Bool.or_eq_false_iff, decide_eq_false_iff_not]
        omega
      have h4 : run simpleRegex.re true s = [] := by
        apply simple_head
        simp only [hs, Option.mem_def, Option.some.injEq, forall_eq']
        omega
      exact ⟨h11, Or.inr h3, Or.inr h4, Or.inr h3, Or.inr h4, Or.inl h3⟩
    · have hd2 : isDigit c = false := by simpa using hd
      have h1 := standard_head s (by simp [hs, hd2])
      have h2 := iso_head s (by simp [hs, hd2])
      refine ⟨h11, Or.inl h1, Or.inl h1, Or.inl h2, Or.inl h2, ?_⟩
      by_cases hb : c.toNat = 91
      · left
        apply json_head
        simp only [hs, Option.mem_def, Option.some.injEq, forall_eq']
        refine ⟨?_, by omega⟩
        simp only [isSpace, Bool.or_eq_false_iff, decide_eq_false_iff_not]
        omega
      · right
        apply simple_head
        simp only [hs, Option.mem_def, Option.some.injEq, forall_eq']
        exact hb

theorem simple_first (level ws message : List Char)
    (hl : level ≠ []) (hlw : ∀ c ∈ level, isWord c = true)
    (hw : ws ≠ []) (hws : ∀ c ∈ ws, isSpace c = true)
    (hm : message ≠ []) (hms : ∀ c ∈ message.head?, isSpace c = false)
    (hmn : ∀ c ∈ message, anyNotNL c = true) :
    first simpleRegex.re true (simpleLine level ws message) =
      some ⟨[(2, message), (1, level)], simpleLine level ws message, []⟩ := by
  have h := first_bot_seq (leads_cls (p := isChar '[') (c := '[') (by decide)
    (leads_group_plus (n := 1) hl hlw (by simp; decide)
      (leads_cls (p := isChar ']') (c := ']') (by decide)
        (leads_plus hw hws hms (leads_group_plus_eot (n := 2) hm hmn)))))
  simpa [simpleRegex, Re.cat, simpleLine] using h

theorem simple_find (level ws message : List Char)
    (hl : level ≠ []) (hlw : ∀ c ∈ level, isWord c = true)
    (hw : ws ≠ []) (hws : ∀ c ∈ ws, isSpace c = true)
    (hm : message ≠ []) (hms : ∀ c ∈ message.head?, isSpace c = false)
    (hmn : ∀ c ∈ message, anyNotNL c = true) :
    simpleRegex.FindStringSubmatch (String.mk (simpleLine level ws message)) =
      some [String.mk (simpleLine level ws message), String.mk level, String.mk message] := by
  rw [find_eq_first _ simple_startsBot, simple_first level ws message hl hlw hw hws hm hms hmn]
  simp [groupTexts, simpleRegex, List.lookup]

theorem leads_keyValue (key : String) (n : Nat) (rs : List Re) (z : Re)
    (w1 w2 w3 w4 value tail : List Char) {caps : List (Nat × List Char)} {text rest : List Char}
    (h1 : ∀ c ∈ w1, isSpace c = true) (h2 : ∀ c ∈ w2, isSpace c = true)
    (h3 : ∀ c ∈ w3, isSpace c = true) (h4 : ∀ c ∈ w4, isSpace c = true)
    (hv : value ≠ []) (hvq : ∀ c ∈ value, notQuote c = true)
    (htail : ∀ c ∈ tail.head?, isSpace c = false)
    (h : Leads (Re.cat rs z) tail ⟨caps, text, rest⟩) :
    Leads (Re.cat (keyValueRe key n ++ rs) z) (keyValueText w1 w2 w3 w4 key.data value tail)
      ⟨caps ++ [(n, value)], keyValueText w1 w2 w3 w4 key.data value text, rest⟩ := by
  have hq : isChar '"' '"' = true := by decide
  have e : Re.cat (keyValueRe key n ++ rs) z =
      .seq (.star isSpace) (.seq (.cls (isChar '"')) (Re.cat (key.data.map (fun x => Re.cls (isChar x)))
        (.seq (.cls (isChar '"')) (.seq (.star isSpace) (.seq (.cls (isChar ':'))
          (.seq (.star isSpace) (.seq (.cls (isChar '"')) (.seq (.group n (.plus notQuote))
            (.seq (.cls (isChar '"')) (.seq (.star isSpace) (Re.cat rs z))))))))))) := by
    simp [keyValueRe, Re.cat, Re.str, cat_append]
  rw [e]
  unfold keyValueText
  exact leads_star h1 (by simp; decide) (leads_cls hq (leads_chars key.data _ _
    (leads_cls hq (leads_star h2 (by simp; decide) (leads_cls (c := ':') (by decide)
      (leads_star h3 (by simp; decide) (leads_cls hq (leads_group_plus hv hvq (by simp; decide)
        (leads_cls hq (leads_star h4 htail h))))))))))

theorem json_first (sp : Nat → List Char) (t l m : List Char)
    (hsp : ∀ i, ∀ c ∈ sp i, isSpace c = true)
    (ht : t ≠ []) (htq : ∀ c ∈ t, notQuote c = true)
    (hl : l ≠ []) (hlq : ∀ c ∈ l, notQuote c = true)
    (hm : m ≠ []) (hmq : ∀ c ∈ m, notQuote c = true) :
    first jsonRegex.re true (jsonLine sp t l m) =
      some ⟨[(3, m), (2, l), (1, t)], jsonLine sp t l m, []⟩ := by
  have hopen : isChar (Char.ofNat 123) (Char.ofNat 123) = true := by decide
  have hclose : isChar (Char.ofNat 125) (Char.ofNat 125) = true := by decide
  have hcomma : isChar ',' ',' = true := by decide
  have e : jsonRegex.re = .seq .bot (.seq (.star isSpace) (.seq (.cls (isChar (Char.ofNat 123)))
      (Re.cat (keyValueRe "timestamp" 1 ++ [.cls (isChar ',')])
        (Re.cat (keyValueRe "level" 2 ++ [.cls (isChar ',')])
          (Re.cat (keyValueRe "message" 3 ++ [.cls (isChar (Char.ofNat 125)), .star isSpace])
            .eot))))) := by
    simp only [jsonRegex, List.append_assoc, cat_append]
    rfl
  rw [e]
  have k3 := leads_keyValue "message" 3 [.cls (isChar (Char.ofNat 125)), .star isSpace] .eot
    (sp 9) (sp 10) (sp 11) (sp 12) m (Char.ofNat 125 :: sp 13) (hsp 9) (hsp 10) (hsp 11) (hsp 12)
    hm hmq (by simp; decide) (leads_cls hclose (leads_star_eot (hsp 13)))
  have k2 := leads_keyValue "level" 2 [.cls (isChar ',')] _
    (sp 5) (sp 6) (sp 7) (sp 8) l _ (hsp 5) (hsp 6) (hsp 7) (hsp 8)
    hl hlq (by simp; decide) (leads_cls hcomma k3)
  have k1 := leads_keyValue "timestamp" 1 [.cls (isChar ',')] _
    (sp 1) (sp 2) (sp 3) (sp 4) t _ (hsp 1) (hsp 2) (hsp 3) (hsp 4)
    ht htq (by simp; decide) (leads_cls hcomma k2)
  have h := first_bot_seq (leads_star (hsp 0) (by simp; decide) (leads_cls hopen k1))
  simpa [jsonLine] using h

theorem json_find (sp : Nat → List Char) (t l m : List Char)
    (hsp : ∀ i, ∀ c ∈ sp i, isSpace c = true)
    (ht : t ≠ []) (htq : ∀ c ∈ t, notQuote c = true)
    (hl : l ≠ []) (hlq : ∀ c ∈ l, notQuote c = true)
    (hm : m ≠ []) (hmq : ∀ c ∈ m, notQuote c = true) :
    jsonRegex.FindStringSubmatch (String.mk (jsonLine sp t l m)) =
      some [String.mk (jsonLine sp t l m), String.mk t, String.mk l, String.mk m] := by
  rw [find_eq_first _ json_startsBot, json_first sp t l m hsp ht htq hl hlq hm hmq]
  simp [groupTexts, jsonRegex, List.lookup]

end parser

namespace regexp

theorem mem_run_seq {a b : Re} {st : Bool} {s : List Char} {t : Thread} :
    t ∈ run (.seq a b) st s ↔ ∃ t1 ∈ run a st s, ∃ t2 ∈ run b (st && t1.text.isEmpty) t1.rest,
      t = ⟨t2.caps ++ t1.caps, t1.text ++ t2.text, t2.rest⟩ := by
  simp only [run, List.mem_flatMap, List.mem_map]
  constructor
  · rintro ⟨t1, h1, t2, h2, rfl⟩
    exact ⟨t1, h1, t2, h2, rfl⟩
  · rintro ⟨t1, h1, t2, h2, rfl⟩
    exact ⟨t1, h1, t2, h2, rfl⟩

theorem mem_run_group {a : Re} {n : Nat} {st : Bool} {s : List Char} {t : Thread} :
    t ∈ run (.group n a) st s ↔ ∃ t1 ∈ run a st s, t = ⟨(n, t1.text) :: t1.caps, t1.text, t1.rest⟩ := by
  simp only [run, List.mem_map]
  constructor
  · rintro ⟨t1, h1, rfl⟩
    exact ⟨t1, h1, rfl⟩
  · rintro ⟨t1, h1, rfl⟩
    exact ⟨t1, h1, rfl⟩

theorem mem_run_cls {p : Char → Bool} {st : Bool} {s : List Char} {t : Thread}
    (h : t ∈ run (.cls p) st s) : ∃ c, p c = true ∧ t.text = [c] := by
  cases s with
  | nil => simp [run] at h
  | cons c cs =>
    by_cases hp : p c = true
    · simp [run, hp] at h
      exact ⟨c, hp, by simp [h]⟩
    · simp [run, hp] at h

theorem mem_run_plus {p : Char → Bool} {st : Bool} {s : List Char} {t : Thread}
    (h : t ∈ run (.plus p) st s) : t.text ≠ [] ∧ ∀ c ∈ t.text, p c = true := by
  simp only [run, List.mem_map] at h
  obtain ⟨tr, htr, rfl⟩ := h
  exact (@mem_runPlus p _ tr.1 tr.2 htr).2

theorem caps_keys {re : Re} {st : Bool} {s : List Char} {t : Thread} (h : t ∈ run re st s) :
    ∀ kv ∈ t.caps, kv.1 ∈ re.groups := by
  induction re generalizing st s t with
  | bot => cases st <;> simp [run] at h; simp [h]
  | eot => cases s <;> simp [run] at h; simp [h]
  | cls p =>
    cases s with
    | nil => simp [run] at h
    | cons c cs =>
      by_cases hp : p c = true
      · simp [run, hp] at h; simp [h]
      · simp [run, hp] at h
  | seq a b iha ihb =>
    rw [mem_run_seq] at h
    obtain ⟨t1, h1, t2, h2, rfl⟩ := h
    intro kv hkv
    simp only [List.mem_append] at hkv
    simp only [Re.groups, List.mem_append]
    rcases hkv with hkv | hkv
    · exact Or.inr (ihb h2 kv hkv)
    · exact Or.inl (iha h1 kv hkv)
  | opt a ih =>
    simp only [run, List.mem_append, List.mem_singleton] at h
    rcases h with h | h
    · exact ih h
    · simp [h]
  | star p =>
    simp only [run, List.mem_map] at h
    obtain ⟨tr, _, rfl⟩ := h
    simp
  | plus p =>
    simp only [run, List.mem_map] at h
    obtain ⟨tr, _, rfl⟩ := h
    simp
  | group n a ih =>
    rw [mem_run_group] at h
    obtain ⟨t1, h1, rfl⟩ := h
    intro kv hkv
    simp only [List.mem_cons] at hkv
    simp only [Re.groups, List.mem_cons]
    rcases hkv with rfl | hkv
    · exact Or.inl rfl
    · exact Or.inr (ih h1 kv hkv)

theorem lookup_append_skip (k : Nat) (l1 l2 : List (Nat × List Char))
    (h : ∀ kv ∈ l1, kv.1 ≠ k) : (l1 ++ l2).lookup k = l2.lookup k := by
  induction l1 with
  | nil => rfl
  | cons x xs ih =>
    obtain ⟨a, v⟩ := x
    have ha : a ≠ k := h (a, v) (by simp)
    have hka : (k == a) = false := by simp [Ne.symm ha]
    simp only [List.cons_append, List.lookup, hka]
    exact ih (fun kv hkv => h kv (by simp [hkv]))

theorem nonNull_cls (p : Char → Bool) : NonNull (.cls p) := by
  intro st s t h
  obtain ⟨c, _, e⟩ := mem_run_cls h
  simp [e]

theorem nonNull_seq_left {a : Re} (b : Re) (h : NonNull a) : NonNull (.seq a b) := by
  intro st s t ht
  rw [mem_run_seq] at ht
  obtain ⟨t1, h1, t2, _, rfl⟩ := ht
  have := h _ _ _ h1
  simp [this]

theorem nonNull_group {a : Re} (n : Nat) (h : NonNull a) : NonNull (.group n a) := by
  intro st s t ht
  rw [mem_run_group] at ht
  obtain ⟨t1, h1, rfl⟩ := ht
  exact (h _ _ _ h1 : t1.text ≠ [])

theorem lastIn_cls {p q : Char → Bool} (h : ∀ c, p c = true → q c = true) : LastIn q (.cls p) := by
  intro st s t ht c hc
  obtain ⟨x, hx, e⟩ := mem_run_cls ht
  simp [e] at hc
  subst hc
  exact h _ hx

theorem lastIn_plus {p q : Char → Bool} (h : ∀ c, p c = true → q c = true) :
    LastIn q (.plus p) := by
  intro st s t ht c hc
  exact h _ ((mem_run_plus ht).2 c (List.mem_of_getLast?_eq_some hc))

theorem lastIn_opt {q : Char → Bool} {a : Re} (h : LastIn q a) : LastIn q (.opt a) := by
  intro st s t ht c hc
  simp only [run, List.mem_append, List.mem_singleton] at ht
  rcases ht with ht | ht
  · exact h _ _ _ ht c hc
  · simp [ht] at hc

theorem lastIn_seq {q : Char → Bool} {a b : Re} (ha : LastIn q a) (hb : LastIn q b) :
    LastIn q (.seq a b) := by
  intro st s t ht c hc
  rw [mem_run_seq] at ht
  obtain ⟨t1, h1, t2, h2, rfl⟩ := ht
  by_cases he : t2.text = []
  · simp only [he, List.append_nil] at hc
    exact ha _ _ _ h1 c hc
  · simp only [List.getLast?_append_of_ne_nil _ he] at hc
    exact hb _ _ _ h2 c hc

theorem lastIn_seq_right {q : Char → Bool} (a : Re) {b : Re} (hn : NonNull b) (hb : LastIn q b) :
    LastIn q (.seq a b) := by
  intro st s t ht c hc
  rw [mem_run_seq] at ht
  obtain ⟨t1, h1, t2, h2, rfl⟩ := ht
  simp only [List.getLast?_append_of_ne_nil _ (hn _ _ _ h2)] at hc
  exact hb _ _ _ h2 c hc

theorem headIn_cls_seq {p : Char → Bool} (b : Re) : HeadIn p (.seq (.cls p) b) := by
  intro st s t ht c hc
  rw [mem_run_seq] at ht
  obtain ⟨t1, h1, t2, h2, rfl⟩ := ht
  obtain ⟨x, hx, e⟩ := mem_run_cls h1
  simp [e] at hc
  subst hc
  exact hx

theorem nonNull_plus (p : Char → Bool) : NonNull (.plus p) := by
  intro st s t h
  exact (mem_run_plus h).1

end regexp

namespace parser

open regexp

/-- The body of group 1 of the standard pattern. -/
theorem standardStamp_eq :
    standardRegex.re = .seq .bot (.seq (.group 1 standardStampRe) (levelMessageRe 2 3)) := rfl

theorem standardStamp_nonNull : NonNull standardStampRe :=
  nonNull_seq_left _ (nonNull_cls _)

theorem standardStamp_headIn : HeadIn isDigit standardStampRe :=
  headIn_cls_seq _

theorem standardStamp_lastIn : LastIn isDigit standardStampRe := by
  simp only [standardStampRe, Re.cat, dateRe, clockRe, Re.four, Re.two, List.cons_append,
    List.nil_append, List.append_assoc]
  repeat (first
    | exact lastIn_seq (lastIn_cls (fun _ h => h))
        (lastIn_opt (lastIn_seq_right _ (nonNull_plus _) (lastIn_plus (fun _ h => h))))
    | apply lastIn_seq_right _ (nonNull_seq_left _ (nonNull_cls _))
    | apply lastIn_seq_right _ (nonNull_seq_left _ (nonNull_plus _)))

theorem isSpace_of_digit (c : Char) (h : isDigit c = true) : strings.IsSpace c = false :=
  time.isSpace_of_isDigit c h

/-- The timestamp the standard pattern captures starts and ends with a digit, so
`TrimSpace` leaves it as it is. -/
theorem standard_trim (line : String) (ms : List String)
    (h : standardRegex.FindStringSubmatch line = some ms) :
    strings.TrimSpace (sub ms 1) = sub ms 1 := by
  rw [find_eq_first _ standard_startsBot] at h
  simp only [Option.map_eq_some', first] at h
  obtain ⟨t, ht, rfl⟩ := h
  have hmem : t ∈ run standardRegex.re true line.data := List.mem_of_mem_head? ht
  rw [standardStamp_eq, mem_run_seq] at hmem
  obtain ⟨t0, _, t1, h1, rfl⟩ := hmem
  rw [mem_run_seq] at h1
  obtain ⟨tg, hg, tl, hl, rfl⟩ := h1
  rw [mem_run_group] at hg
  obtain ⟨tx, hx, rfl⟩ := hg
  have hkeys : ∀ kv ∈ tl.caps, kv.1 ≠ 1 := by
    intro kv hkv
    have := caps_keys hl kv hkv
    simp [levelMessageRe, Re.cat, Re.groups] at this
    omega
  have hlook : ((tl.caps ++ (1, tx.text) :: (tx.caps ++ t0.caps)).lookup 1) = some tx.text := by
    rw [lookup_append_skip 1 _ _ hkeys]
    simp [List.lookup]
  have hsub : sub (String.mk (t0.text ++ (tx.text ++ tl.text)) ::
      groupTexts ((tl.caps ++ (1, tx.text) :: tx.caps) ++ t0.caps) 1 standardRegex.numSubexp) 1
      = String.mk tx.text := by
    simp [sub, standardRegex, groupTexts, hlook]
  rw [hsub]
  have hne := standardStamp_nonNull _ _ _ hx
  have hsplit := List.dropLast_append_getLast hne
  have hlast : strings.IsSpace (tx.text.getLast hne) = false :=
    isSpace_of_digit _ (standardStamp_lastIn _ _ _ hx _ (by
      rw [Option.mem_def, List.getLast?_eq_getLast _ hne]))
  have hhead : ∀ c ∈ (tx.text.dropLast ++ [tx.text.getLast hne]).head?,
      strings.IsSpace c = false := by
    rw [hsplit]
    intro c hc
    exact isSpace_of_digit _ (standardStamp_headIn _ _ _ hx c hc)
  have := strings.trim_keeps _ _ hhead hlast
  rw [hsplit] at this
  simp [strings.TrimSpace, this]

end parser

namespace time

theorem fixed_zero (w : Nat) : fixed w 0 = List.replicate w '0' := by
  induction w with
  | zero => rfl
  | succ w ih =>
    have : digitChar 0 = '0' := by decide
    simp only [fixed, Nat.zero_div, ih, this]
    exact (List.replicate_succ' ..).symm

theorem utod_fixed (w : Nat) : ∀ n, n < 10 ^ (w + 1) → ∀ fuel acc, n < fuel →
    ∃ ds, utod fuel n acc = ds ++ acc ∧ ds.length ≤ w + 1 ∧
      List.replicate (w + 1 - ds.length) '0' ++ ds = fixed (w + 1) n := by
  induction w with
  | zero =>
    intro n hn fuel acc hf
    obtain ⟨f, rfl⟩ : ∃ f, fuel = f + 1 := ⟨fuel - 1, by omega⟩
    have h0 : n / 10 = 0 := by omega
    exact ⟨[digitChar n], by simp [utod, h0], by simp, by simp [fixed]⟩
  | succ w ih =>
    intro n hn fuel acc hf
    obtain ⟨f, rfl⟩ : ∃ f, fuel = f + 1 := ⟨fuel - 1, by omega⟩
    by_cases h0 : n / 10 = 0
    · refine ⟨[digitChar n], by simp [utod, h0], by simp, ?_⟩
      have : fixed (w + 1 + 1) n = fixed (w + 1) 0 ++ [digitChar n] := by
        rw [fixed, h0]
      rw [this, fixed_zero]
      simp
    · have hlt : n / 10 < 10 ^ (w + 1) := by
        rw [Nat.div_lt_iff_lt_mul (by decide)]
        calc n < 10 ^ (w + 1 + 1) := hn
          _ = 10 ^ (w + 1) * 10 := by ring
      obtain ⟨ds, h1, h2, h3⟩ := ih (n / 10) hlt f (digitChar n :: acc) (by omega)
      refine ⟨ds ++ [digitChar n], by simp [utod, h0, h1], by simp; omega, ?_⟩
      have e : w + 1 + 1 - (ds ++ [digitChar n]).length = w + 1 - ds.length := by
        simp
      rw [e, ← List.append_assoc, h3]
      rfl

theorem appendInt_fixed (w n : Nat) (hn : n < 10 ^ (w + 1)) :
    appendInt (n : Int) (w + 1) = fixed (w + 1) n := by
  obtain ⟨ds, h1, _, h3⟩ := utod_fixed w n hn (n + 1) [] (by omega)
  rw [List.append_nil] at h1
  have hneg : ¬ ((n : Int) < 0) := by omega
  simp only [appendInt, Int.natAbs_ofNat, h1, hneg, if_false, List.nil_append]
  exact h3

theorem appendInt_two (n : Nat) (hn : n < 100) : appendInt (n : Int) 2 = two n := by
  rw [appendInt_fixed 1 n (by omega)]
  simp [fixed, two]

theorem appendInt_four (n : Nat) (hn : n < 10000) : appendInt (n : Int) 4 = four n := by
  rw [appendInt_fixed 3 n (by omega)]
  simp [fixed, four, Nat.div_div_eq_div_mul]

theorem appendNano_milli (ns : Nat) (hn : ns < 1000000000) :
    appendNano ns 3 = '.' :: fixed 3 (ns / 1000000) := by
  simp only [appendNano]
  rw [appendInt_fixed 8 ns (by omega)]
  simp [fixed, Nat.div_div_eq_div_mul]

/-- The layout of `LogEntry.String` shows a valid date and time as `YYYY-MM-DD HH:MM:SS.mmm`,
the three digits being the milliseconds. -/
theorem format_stamp (c : Civil) (hv : c.Valid) (ns : Nat) (hn : ns < 1000000000) (off : Int) :
    Time.Format ⟨c.year, c.month, c.day, c.hour, c.minute, c.second, ns, off⟩
      layoutDateTimeMilli = String.mk (c.stampText [' '] ('.' :: fixed 3 (ns / 1000000))) := by
  obtain ⟨hy, hm1, hm2, hd1, hd2, hh, hmi, hs⟩ := hv
  have hdm : monthLength c.year c.month ≤ 31 := by
    unfold monthLength; split <;> try split
    all_goals omega
  simp [Time.Format, layoutDateTimeMilli, layoutDateTime, Time.appendChunk,
    appendInt_four c.year (by omega), appendInt_two c.month (by omega),
    appendInt_two c.day (by omega), appendInt_two c.hour (by omega),
    appendInt_two c.minute (by omega), appendInt_two c.second (by omega),
    appendNano_milli ns hn, Civil.stampText, Civil.dateText, Civil.clockText]

end time

namespace parser

open regexp

theorem parse_standard (now : time.Time) (line : String) (ms : List String)
    (h : standardRegex.FindStringSubmatch line = some ms) :
    NewLogParser.Parse now line = standardHandler now ms := by
  simp [LogParser.Parse, NewLogParser, initPatterns, parseWith, standardPattern, h]

theorem parse_iso (now : time.Time) (line : String) (ms : List String)
    (h1 : standardRegex.FindStringSubmatch line = none)
    (h : isoRegex.FindStringSubmatch line = some ms) :
    NewLogParser.Parse now line = isoHandler now ms := by
  simp [LogParser.Parse, NewLogParser, initPatterns, parseWith, standardPattern, isoPattern, h1, h]

theorem parse_json (now : time.Time) (line : String) (ms : List String)
    (h1 : standardRegex.FindStringSubmatch line = none)
    (h2 : isoRegex.FindStringSubmatch line = none)
    (h : jsonRegex.FindStringSubmatch line = some ms) :
    NewLogParser.Parse now line = jsonHandler now ms := by
  simp [LogParser.Parse, NewLogParser, initPatterns, parseWith, standardPattern, isoPattern,
    jsonPattern, h1, h2, h]

theorem parse_simple (now : time.Time) (line : String) (ms : List String)
    (h1 : standardRegex.FindStringSubmatch line = none)
    (h2 : isoRegex.FindStringSubmatch line = none)
    (h3 : jsonRegex.FindStringSubmatch line = none)
    (h : simpleRegex.FindStringSubmatch line = some ms) :
    NewLogParser.Parse now line = simpleHandler now ms := by
  simp [LogParser.Parse, NewLogParser, initPatterns, parseWith, standardPattern, isoPattern,
    jsonPattern, simplePattern, h1, h2, h3, h]

theorem parse_unknown (now : time.Time) (line : String)
    (h1 : standardRegex.FindStringSubmatch line = none)
    (h2 : isoRegex.FindStringSubmatch line = none)
    (h3 : jsonRegex.FindStringSubmatch line = none)
    (h4 : simpleRegex.FindStringSubmatch line = none) :
    NewLogParser.Parse now line = .ok (unknownEntry now line) := by
  simp [LogParser.Parse, NewLogParser, initPatterns, parseWith, standardPattern, isoPattern,
    jsonPattern, simplePattern, h1, h2, h3, h4]

/-- At most one of the four patterns finds a match in a line. -/
theorem find_exclusive (line : String) :
    (standardRegex.FindStringSubmatch line = none ∨ isoRegex.FindStringSubmatch line = none) ∧
    (standardRegex.FindStringSubmatch line = none ∨ jsonRegex.FindStringSubmatch line = none) ∧
    (standardRegex.FindStringSubmatch line = none ∨ simpleRegex.FindStringSubmatch line = none) ∧
    (isoRegex.FindStringSubmatch line = none ∨ jsonRegex.FindStringSubmatch line = none) ∧
    (isoRegex.FindStringSubmatch line = none ∨ simpleRegex.FindStringSubmatch line = none) ∧
    (jsonRegex.FindStringSubmatch line = none ∨ simpleRegex.FindStringSubmatch line = none) := by
  simp only [find_none_iff _ standard_startsBot, find_none_iff _ iso_startsBot,
    find_none_iff _ json_startsBot, find_none_iff _ simple_startsBot]
  exact patterns_exclusive line.data

theorem standardHandler_cases (now : time.Time) (ms : List String) :
    (∃ ts, standardHandler now ms = .ok (entryOf ts (sub ms 2) (sub ms 3) (sub ms 0))) ∨
    (standardHandler now ms = .error timeError ∧
      time.Parse time.layoutDateTime (strings.TrimSpace (sub ms 1)) = none ∧
      time.Parse time.layoutDateTimeMilli (strings.TrimSpace (sub ms 1)) = none) := by
  unfold standardHandler
  cases h1 : time.Parse time.layoutDateTime (strings.TrimSpace (sub ms 1)) with
  | some ts => exact Or.inl ⟨ts, rfl⟩
  | none =>
    cases h2 : time.Parse time.layoutDateTimeMilli (strings.TrimSpace (sub ms 1)) with
    | some ts => exact Or.inl ⟨ts, rfl⟩
    | none => exact Or.inr ⟨rfl, rfl, rfl⟩

theorem isoHandler_cases (now : time.Time) (ms : List String) :
    (∃ ts, isoHandler now ms = .ok (entryOf ts (sub ms 2) (sub ms 3) (sub ms 0))) ∨
    (isoHandler now ms = .error timeError ∧
      time.Parse time.RFC3339 (sub ms 1) = none ∧
      time.Parse time.layoutTMilli (sub ms 1) = none) := by
  unfold isoHandler
  cases h1 : time.Parse time.RFC3339 (sub ms 1) with
  | some ts => exact Or.inl ⟨ts, rfl⟩
  | none =>
    cases h2 : time.Parse time.layoutTMilli (sub ms 1) with
    | some ts => exact Or.inl ⟨ts, rfl⟩
    | none => exact Or.inr ⟨rfl, rfl, rfl⟩

theorem jsonHandler_cases (now : time.Time) (ms : List String) :
    (∃ ts, jsonHandler now ms = .ok (entryOf ts (sub ms 2) (sub ms 3) (sub ms 0))) ∨
    (jsonHandler now ms = .error timeError ∧ time.Parse time.RFC3339 (sub ms 1) = none) := by
  unfold jsonHandler
  cases h1 : time.Parse time.RFC3339 (sub ms 1) with
  | some ts => exact Or.inl ⟨ts, rfl⟩
  | none => exact Or.inr ⟨rfl, rfl⟩

/-- What `Parse` returns, by the first pattern that matches: a record, or the error
of a timestamp that no layout reads. -/
theorem parse_cases (now : time.Time) (line : String) :
    (∃ e, NewLogParser.Parse now line = .ok e) ∧ ¬ TimestampFails line ∨
    NewLogParser.Parse now line = .error timeError ∧ TimestampFails line := by
  cases hs : standardRegex.FindStringSubmatch line with
  | some ms =>
    rw [parse_standard now line ms hs]
    have htrim := standard_trim line ms hs
    rcases standardHandler_cases now ms with ⟨ts, h⟩ | ⟨h, p1, p2⟩
    · left
      refine ⟨⟨_, h⟩, ?_⟩
      rintro (⟨ms2, hm, q1, q2⟩ | ⟨hn, _⟩ | ⟨hn, _⟩)
      · rw [hs] at hm
        cases hm
        unfold standardHandler at h
        rw [htrim, q1, q2] at h
        cases h
      · rw [hs] at hn; cases hn
      · rw [hs] at hn; cases hn
    · right
      rw [htrim] at p1 p2
      exact ⟨h, Or.inl ⟨ms, hs, p1, p2⟩⟩
  | none =>
    cases hi : isoRegex.FindStringSubmatch line with
    | some ms =>
      rw [parse_iso now line ms hs hi]
      rcases isoHandler_cases now ms with ⟨ts, h⟩ | ⟨h, p1, p2⟩
      · left
        refine ⟨⟨_, h⟩, ?_⟩
        rintro (⟨ms2, hm, _⟩ | ⟨_, ms2, hm, q1, q2⟩ | ⟨_, hn, _⟩)
        · rw [hs] at hm; cases hm
        · rw [hi] at hm
          cases hm
          unfold isoHandler at h
          rw [q1, q2] at h
          cases h
        · rw [hi] at hn; cases hn
      · right
        exact ⟨h, Or.inr (Or.inl ⟨hs, ms, hi, p1, p2⟩)⟩
    | none =>
      cases hj : jsonRegex.FindStringSubmatch line with
      | some ms =>
        rw [parse_json now line ms hs hi hj]
        rcases jsonHandler_cases now ms with ⟨ts, h⟩ | ⟨h, p1⟩
        · left
          refine ⟨⟨_, h⟩, ?_⟩
          rintro (⟨ms2, hm, _⟩ | ⟨_, ms2, hm, _⟩ | ⟨_, _, ms2, hm, q1⟩)
          · rw [hs] at hm; cases hm
          · rw [hi] at hm; cases hm
          · rw [hj] at hm
            cases hm
            unfold jsonHandler at h
            rw [q1] at h
            cases h
        · right
          exact ⟨h, Or.inr (Or.inr ⟨hs, hi, ms, hj, p1⟩)⟩
      | none =>
        left
        constructor
        · cases h4 : simpleRegex.FindStringSubmatch line with
          | some ms =>
            rw [parse_simple now line ms hs hi hj h4]
            exact ⟨_, rfl⟩
          | none =>
            rw [parse_unknown now line hs hi hj h4]
            exact ⟨_, rfl⟩
        · rintro (⟨ms2, hm, _⟩ | ⟨_, ms2, hm, _⟩ | ⟨_, _, ms2, hm, _⟩)
          · rw [hs] at hm; cases hm
          · rw [hi] at hm; cases hm
          · rw [hj] at hm; cases hm

theorem iso_then_standard_none (line : String) (ms : List String)
    (h : isoRegex.FindStringSubmatch line = some ms) :
    standardRegex.FindStringSubmatch line = none := by
  rcases (find_exclusive line).1 with h1 | h1
  · exact h1
  · rw [h1] at h; cases h

theorem simpleLine_eq (level ws message : String) :
    "[" ++ level ++ "]" ++ ws ++ message =
      String.mk (simpleLine level.data ws.data message.data) := by
  apply String.ext
  simp [simpleLine]

theorem simpleLine_others (level ws message : List Char) :
    standardRegex.FindStringSubmatch (String.mk (simpleLine level ws message)) = none ∧
    isoRegex.FindStringSubmatch (String.mk (simpleLine level ws message)) = none ∧
    jsonRegex.FindStringSubmatch (String.mk (simpleLine level ws message)) = none := by
  rw [find_none_iff _ standard_startsBot, find_none_iff _ iso_startsBot,
    find_none_iff _ json_startsBot]
  refine ⟨standard_head _ ?_, iso_head _ ?_, json_head _ ?_⟩
  · simp [simpleLine]; decide
  · simp [simpleLine]; decide
  · simp [simpleLine]; decide

theorem jsonLine_head (sp : Nat → List Char) (t l m : List Char)
    (hsp : ∀ c ∈ sp 0, isSpace c = true) :
    ∀ c ∈ (jsonLine sp t l m).head?, isDigit c = false := by
  intro c hc
  unfold jsonLine at hc
  cases h0 : sp 0 with
  | nil =>
    rw [h0] at hc
    simp at hc
    subst hc
    decide
  | cons x xs =>
    have hx : isSpace x = true := hsp x (by simp [h0])
    rw [h0] at hc
    simp at hc
    subst hc
    simp only [isSpace, Bool.or_eq_true, decide_eq_true_eq] at hx
    simp only [isDigit, Bool.and_eq_false_iff, decide_eq_false_iff_not]
    omega

theorem notQuote_digitChar (n : Nat) : notQuote (time.digitChar n) = true := by
  have : n % 10 < 10 := Nat.mod_lt _ (by decide)
  simp only [notQuote, time.digitChar_toNat]
  simp
  omega

theorem notQuote_of_isDigit (c : Char) (h : time.isDigit c = true) : notQuote c = true := by
  simp only [time.isDigit, Bool.and_eq_true, decide_eq_true_eq] at h
  simp only [notQuote]
  simp
  omega

/-- A timestamp text with a zone designator has no double quote in it. -/
theorem isoText_notQuote (c : time.Civil) (frac : List Char) (hfrac : time.IsFraction frac)
    (z : time.Zone) : ∀ x ∈ c.isoText frac z.text, notQuote x = true := by
  have hz : ∀ x ∈ z.text, notQuote x = true := by
    cases z <;>
      simp [time.Zone.text, time.two, notQuote_digitChar] <;> decide
  have hf : ∀ x ∈ frac, notQuote x = true := by
    rcases hfrac with rfl | ⟨d, ds, rfl, hds⟩
    · simp
    · intro x hx
      simp only [List.mem_cons] at hx
      rcases hx with rfl | hx
      · decide
      · exact notQuote_of_isDigit x (hds x (by simpa using hx))
  intro x hx
  simp only [time.Civil.isoText, time.Civil.dateText, time.Civil.clockText, time.four, time.two,
    List.mem_append, List.mem_cons, List.mem_singleton, List.not_mem_nil, or_false] at hx
  rcases hx with (rfl | rfl | rfl | rfl) | rfl | (rfl | rfl) | rfl | (rfl | rfl) | rfl |
    (rfl | rfl) | rfl | (rfl | rfl) | rfl | (rfl | rfl) | hx | hx
  all_goals first
    | exact notQuote_digitChar _
    | exact hf _ hx
    | exact hz _ hx
    | decide

theorem isoText_ne_nil (c : time.Civil) (frac zone : List Char) : c.isoText frac zone ≠ [] := by
  simp [time.Civil.isoText, time.Civil.dateText, time.four]

/-- When some pattern of a list matches a line and no other pattern of the list
does, the loop returns what the handler of that pattern returns. -/
theorem parseWith_unique (now : time.Time) (line : String) (p : logPattern) (ms : List String)
    (hm : p.regex.FindStringSubmatch line = some ms) :
    ∀ ps : List logPattern, p ∈ ps →
      (∀ q ∈ ps, q.regex.FindStringSubmatch line ≠ none →
        q.regex.FindStringSubmatch line = some ms ∧ q.handler = p.handler) →
      parseWith now line ps = p.handler now ms := by
  intro ps
  induction ps with
  | nil => intro h; simp at h
  | cons q qs ih =>
    intro hp huniq
    cases hq : q.regex.FindStringSubmatch line with
    | some ms2 =>
      obtain ⟨e1, e2⟩ := huniq q (by simp) (by rw [hq]; simp)
      rw [hq] at e1
      cases e1
      simp [parseWith, hq, e2]
    | none =>
      have hpq : p ∈ qs := by
        rcases List.mem_cons.1 hp with rfl | h
        · rw [hq] at hm; cases hm
        · exact h
      simp only [parseWith, hq]
      exact ih hpq (fun r hr => huniq r (by simp [hr]))

theorem parseWith_none (now : time.Time) (line : String) :
    ∀ ps : List logPattern, (∀ q ∈ ps, q.regex.FindStringSubmatch line = none) →
      parseWith now line ps = .ok (unknownEntry now line) := by
  intro ps
  induction ps with
  | nil => intro _; rfl
  | cons q qs ih =>
    intro h
    simp only [parseWith, h q (by simp)]
    exact ih (fun r hr => h r (by simp [hr]))

/-- Two of the four recognizers that both match a line are the same recognizer. -/
theorem hit_unique (line : String) (p q : logPattern) (hp : p ∈ initPatterns)
    (hq : q ∈ initPatterns) (h1 : p.regex.FindStringSubmatch line ≠ none)
    (h2 : q.regex.FindStringSubmatch line ≠ none) : p = q := by
  obtain ⟨e1, e2, e3, e4, e5, e6⟩ := find_exclusive line
  simp only [initPatterns, List.mem_cons, List.mem_singleton, List.not_mem_nil, or_false] at hp hq
  rcases hp with rfl | rfl | rfl | rfl <;> rcases hq with rfl | rfl | rfl | rfl <;>
    first
    | rfl
    | (simp only [standardPattern, isoPattern, jsonPattern, simplePattern] at h1 h2; tauto)

/-- The result of the loop of `Parse` is the same for every order of the four recognizers. -/
theorem parseWith_perm (now : time.Time) (line : String) (ps : List logPattern)
    (hperm : ps.Perm initPatterns) :
    parseWith now line ps = parseWith now line initPatterns := by
  by_cases hex : ∃ p ∈ initPatterns, p.regex.FindStringSubmatch line ≠ none
  · obtain ⟨p, hp, hne⟩ := hex
    obtain ⟨ms, hm⟩ := Option.ne_none_iff_exists'.1 hne
    have huniq : ∀ q ∈ initPatterns, q.regex.FindStringSubmatch line ≠ none →
        q.regex.FindStringSubmatch line = some ms ∧ q.handler = p.handler := by
      intro q hq hqn
      have := hit_unique line q p hq hp hqn hne
      subst this
      exact ⟨hm, rfl⟩
    rw [parseWith_unique now line p ms hm ps (hperm.mem_iff.2 hp)
        (fun q hq => huniq q (hperm.mem_iff.1 hq)),
      parseWith_unique now line p ms hm initPatterns hp huniq]
  · have hall : ∀ q ∈ initPatterns, q.regex.FindStringSubmatch line = none := by
      intro q hq
      by_contra hcon
      exact hex ⟨q, hq, hcon⟩
    rw [parseWith_none now line ps (fun q hq => hall q (hperm.mem_iff.1 hq)),
      parseWith_none now line initPatterns hall]

end parser

namespace regexp

theorem caps_nil {re : Re} (hg : re.groups = []) {st : Bool} {s : List Char} {t : Thread}
    (h : t ∈ run re st s) : t.caps = [] := by
  cases hc : t.caps with
  | nil => rfl
  | cons kv rest =>
    have := caps_keys h kv (by simp [hc])
    rw [hg] at this
    simp at this

theorem isChar_eq {x c : Char} (h : isChar x c = true) : c = x := by
  simp only [isChar, decide_eq_true_eq] at h
  apply Char.ext
  apply UInt32.ext
  exact h

theorem mem_run_eot {st : Bool} {s : List Char} {t : Thread} (h : t ∈ run .eot st s) :
    t.text = [] := by
  cases s <;> simp [run] at h
  simp [h]

end regexp

namespace parser

open regexp

/-- The parts of a match of `\s+\[(\w+)\]\s+(.+)$`. -/
theorem levelMessage_shape {a b : Nat} {st : Bool} {s : List Char} {t : Thread}
    (h : t ∈ run (levelMessageRe a b) st s) :
    ∃ ws1 lvl ws2 msg, t.caps = [(b, msg), (a, lvl)] ∧
      t.text = ws1 ++ ('[' :: (lvl ++ (']' :: (ws2 ++ msg)))) ∧
      (ws1 ≠ [] ∧ ∀ c ∈ ws1, isSpace c = true) ∧ (lvl ≠ [] ∧ ∀ c ∈ lvl, isWord c = true) ∧
      (ws2 ≠ [] ∧ ∀ c ∈ ws2, isSpace c = true) ∧ (msg ≠ [] ∧ ∀ c ∈ msg, anyNotNL c = true) := by
  simp only [levelMessageRe, Re.cat] at h
  rw [mem_run_seq] at h
  obtain ⟨t1, h1, u1, h, rfl⟩ := h
  rw [mem_run_seq] at h
  obtain ⟨t2, h2, u2, h, rfl⟩ := h
  rw [mem_run_seq] at h
  obtain ⟨t3, h3, u3, h, rfl⟩ := h
  rw [mem_run_seq] at h
  obtain ⟨t4, h4, u4, h, rfl⟩ := h
  rw [mem_run_seq] at h
  obtain ⟨t5, h5, u5, h, rfl⟩ := h
  rw [mem_run_seq] at h
  obtain ⟨t6, h6, t7, h7, rfl⟩ := h
  rw [mem_run_group] at h3 h6
  obtain ⟨v3, h3, rfl⟩ := h3
  obtain ⟨v6, h6, rfl⟩ := h6
  have c1 := @caps_nil (.plus isSpace) rfl _ _ _ h1
  have c2 := @caps_nil (.cls (isChar '[')) rfl _ _ _ h2
  have c3 := @caps_nil (.plus isWord) rfl _ _ _ h3
  have c4 := @caps_nil (.cls (isChar ']')) rfl _ _ _ h4
  have c5 := @caps_nil (.plus isSpace) rfl _ _ _ h5
  have c6 := @caps_nil (.plus anyNotNL) rfl _ _ _ h6
  have c7 := @caps_nil (.eot) rfl _ _ _ h7
  obtain ⟨x2, hx2, e2⟩ := mem_run_cls h2
  obtain ⟨x4, hx4, e4⟩ := mem_run_cls h4
  have e7 := mem_run_eot h7
  rw [isChar_eq hx2] at e2
  rw [isChar_eq hx4] at e4
  refine ⟨t1.text, v3.text, t5.text, v6.text, ?_, ?_, mem_run_plus h1, mem_run_plus h3,
    mem_run_plus h5, mem_run_plus h6⟩
  · simp [c1, c2, c3, c4, c5, c6, c7]
  · simp [e2, e4, e7]

/-- The parts of a match of a pattern `^(X)\s+\[(\w+)\]\s+(.+)$`, for a timestamp
expression `X` without groups. -/
theorem stamped_parts (r : Regexp) (X : Re) (hX : X.groups = [])
    (hr : r.re = .seq .bot (.seq (.group 1 X) (levelMessageRe 2 3))) (hn : r.numSubexp = 3)
    (line : String) (ms : List String) (h : r.FindStringSubmatch line = some ms) :
    ∃ (tx : Thread) (ws1 lvl ws2 msg : List Char), (∃ st s, tx ∈ run X st s) ∧
      ms = [line, String.mk tx.text, String.mk lvl, String.mk msg] ∧
      line = String.mk (stampedLine tx.text ws1 lvl ws2 msg) ∧
      (ws1 ≠ [] ∧ ∀ c ∈ ws1, isSpace c = true) ∧ (lvl ≠ [] ∧ ∀ c ∈ lvl, isWord c = true) ∧
      (ws2 ≠ [] ∧ ∀ c ∈ ws2, isSpace c = true) ∧ (msg ≠ [] ∧ ∀ c ∈ msg, anyNotNL c = true) := by
  have hb : r.re.startsBot = true := by rw [hr]; rfl
  have he : r.re.endsEot = true := by rw [hr]; rfl
  have hwhole := find_whole r hb he line ms h
  rw [find_eq_first r hb] at h
  simp only [Option.map_eq_some', first] at h
  obtain ⟨t, ht, rfl⟩ := h
  have hmem : t ∈ run r.re true line.data := List.mem_of_mem_head? ht
  have hsplit := run_split hmem
  rw [run_endsEot he hmem, List.append_nil] at hsplit
  rw [hr, mem_run_seq] at hmem
  obtain ⟨t0, h0, t1, h1, rfl⟩ := hmem
  rw [mem_run_seq] at h1
  obtain ⟨tg, hg, tl, hl, rfl⟩ := h1
  rw [mem_run_group] at hg
  obtain ⟨tx, hx, rfl⟩ := hg
  have c0 := @caps_nil (.bot) rfl _ _ _ h0
  have cx := caps_nil hX hx
  have e0 : t0.text = [] := by
    simp [run] at h0
    simp [h0]
  obtain ⟨ws1, lvl, ws2, msg, hcaps, htext, w1, w2, w3, w4⟩ := levelMessage_shape hl
  refine ⟨tx, ws1, lvl, ws2, msg, ⟨_, _, hx⟩, ?_, ?_, w1, w2, w3, w4⟩
  · have hl0 : String.mk (t0.text ++ (tx.text ++ tl.text)) = line := by
      simpa [sub] using hwhole
    simp only [List.cons.injEq]
    refine ⟨hl0, ?_⟩
    simp [hn, groupTexts, hcaps, c0, cx, List.lookup]
  · apply String.ext
    simp only [hsplit, e0, htext, stampedLine, List.nil_append]

theorem isoStamp_eq :
    isoRegex.re = .seq .bot (.seq (.group 1 isoStampRe) (levelMessageRe 2 3)) := rfl

theorem standardStamp_groups : standardStampRe.groups = [] := rfl

theorem isoStamp_groups : isoStampRe.groups = [] := rfl

end parser

namespace time

/-- Layout RFC3339 does not read a timestamp without a zone designator. -/
theorem parse_rfc3339_bare (c : Civil) (hv : c.Valid) (a b d : Char) (ha : isDigit a = true)
    (hb : isDigit b = true) (hd : isDigit d = true) :
    Parse RFC3339 (String.mk (c.isoText ['.', a, b, d] [])) = none := by
  have hs : c.second ≤ 59 := hv.2.2.2.2.2.2.2
  have hfront := loop_iso_front c hv (two c.second ++ ['.', a, b, d])
    [.stdZeroSecond, .stdISO8601ColonTZ]
  have hds : ∀ x ∈ a :: [b, d], isDigit x = true := by
    intro x hx
    simp at hx
    rcases hx with rfl | rfl | rfl <;> assumption
  obtain ⟨ns, hns⟩ := loop_second_fraction c.second hs [.stdISO8601ColonTZ]
    ⟨(c.year : Int), some c.month, some c.day, c.hour, c.minute, 0, 0, false, none⟩ a [b, d] []
    hds (by simp) (by simp [nextStd, Chunk.isFrac])
  unfold Parse RFC3339 Civil.isoText Civil.clockText
  simp only [List.cons_append, List.nil_append, List.append_nil] at hfront hns ⊢
  rw [hfront, hns]
  simp [parseLoop, parseZone]

end time

namespace parser

open regexp

theorem notQuote_of_ne (l : List Char) (h : ∀ x ∈ l, x ≠ '"') : ∀ x ∈ l, notQuote x = true := by
  intro x hx
  have := h x hx
  simp only [notQuote, Bool.not_eq_true', decide_eq_false_iff_not]
  intro e
  apply this
  apply Char.ext
  apply UInt32.ext
  exact e

/-- On a line of the JSON form, `Parse` returns what the JSON handler returns on the
line and the three quoted values. -/
theorem parse_jsonLine (now : time.Time) (sp : Nat → List Char) (stamp level message : List Char)
    (hsp : ∀ i, ∀ x ∈ sp i, isSpace x = true)
    (ht : stamp ≠ []) (htq : ∀ x ∈ stamp, x ≠ '"')
    (hl : level ≠ []) (hlq : ∀ x ∈ level, x ≠ '"')
    (hm : message ≠ []) (hmq : ∀ x ∈ message, x ≠ '"') :
    NewLogParser.Parse now (String.mk (jsonLine sp stamp level message)) =
      jsonHandler now [String.mk (jsonLine sp stamp level message), String.mk stamp,
        String.mk level, String.mk message] := by
  have hhead := jsonLine_head sp stamp level message (hsp 0)
  have h1 : standardRegex.FindStringSubmatch
      (String.mk (jsonLine sp stamp level message)) = none :=
    (find_none_iff _ standard_startsBot _).2 (standard_head _ hhead)
  have h2 : isoRegex.FindStringSubmatch
      (String.mk (jsonLine sp stamp level message)) = none :=
    (find_none_iff _ iso_startsBot _).2 (iso_head _ hhead)
  have h3 := json_find sp stamp level message hsp ht (notQuote_of_ne stamp htq) hl
    (notQuote_of_ne level hlq) hm (notQuote_of_ne message hmq)
  rw [parse_json now _ _ h1 h2 h3]

end parser

/-! ## The claims -/

namespace parser

open regexp

/-- Claim C1: a line that none of the four patterns matches is parsed without error
into the record with level `UNKNOWN`, the line as message and as raw text, no fields
and the reading of the clock as timestamp. -/
theorem C1_unknown_fallback (now : time.Time) (line : String)
    (h1 : standardRegex.FindStringSubmatch line = none)
    (h2 : isoRegex.FindStringSubmatch line = none)
    (h3 : jsonRegex.FindStringSubmatch line = none)
    (h4 : simpleRegex.FindStringSubmatch line = none) :
    NewLogParser.Parse now line =
      .ok { Timestamp := now, Level := "UNKNOWN", Message := line, Fields := [], Raw := line } :=
  parse_unknown now line h1 h2 h3 h4

/-- Claim C1 at the line `random unstructured text`. -/
theorem C1_unknown_fallback_witness :
    NewLogParser.Parse sampleNow "random unstructured text" =
      .ok { Timestamp := sampleNow, Level := "UNKNOWN", Message := "random unstructured text",
            Fields := [], Raw := "random unstructured text" } :=
  C1_unknown_fallback sampleNow "random unstructured text" (by rfl) (by rfl) (by rfl) (by rfl)

/-- Claim C2, refuted as stated: with a tab between the date and the time the line
matches the standard pattern and its timestamp is a valid date and time, yet `Parse`
returns the timestamp error. -/
theorem C2_counterexample_tab :
    standardRegex.FindStringSubmatch "2024-01-01\t12:00:00 [INFO] hello" =
      some ["2024-01-01\t12:00:00 [INFO] hello", "2024-01-01\t12:00:00", "INFO", "hello"] ∧
    "2024-01-01\t12:00:00" =
      String.mk ((⟨2024, 1, 1, 12, 0, 0⟩ : time.Civil).stampText ['\t'] []) ∧
    time.Civil.Valid ⟨2024, 1, 1, 12, 0, 0⟩ ∧
    NewLogParser.Parse sampleNow "2024-01-01\t12:00:00 [INFO] hello" = .error timeError :=
  ⟨by rfl, by rfl, by decide, by rfl⟩

/-- Claim C2, amended: when a line matches the standard pattern and its timestamp is
a valid date and time whose two parts are separated by space characters only,
`Parse` returns no error, the level is the bracketed token (group 2), the message
is the trailing text (group 3) and the timestamp has the fields written; the line
is the timestamp, white space, the level in brackets, white space and the message. -/
theorem C2_standard_valid_timestamp (now : time.Time) (line : String) (ms : List String)
    (c : time.Civil) (sep frac : List Char)
    (hm : standardRegex.FindStringSubmatch line = some ms)
    (hts : sub ms 1 = String.mk (c.stampText sep frac))
    (hv : c.Valid) (hne : sep ≠ []) (hsep : ∀ x ∈ sep, x = ' ')
    (hfrac : time.IsFraction frac) :
    ∃ ns ws1 ws2, NewLogParser.Parse now line =
      .ok { Timestamp := ⟨c.year, c.month, c.day, c.hour, c.minute, c.second, ns, 0⟩,
            Level := sub ms 2, Message := sub ms 3, Fields := [], Raw := line } ∧
      line = String.mk (stampedLine (c.stampText sep frac) ws1 (sub ms 2).data ws2
        (sub ms 3).data) ∧
      (ws1 ≠ [] ∧ ∀ x ∈ ws1, isSpace x = true) ∧ (ws2 ≠ [] ∧ ∀ x ∈ ws2, isSpace x = true) := by
  have hsp : ∀ x ∈ sep, x.toNat = 32 := by
    intro x hx
    rw [hsep x hx]
    decide
  obtain ⟨ns, hp⟩ := time.parse_stamp c hv sep frac hne hsp hfrac
  obtain ⟨tx, ws1, lvl, ws2, msg, _, hms, hline, w1, _, w3, _⟩ :=
    stamped_parts standardRegex standardStampRe standardStamp_groups standardStamp_eq rfl
      line ms hm
  refine ⟨ns, ws1, ws2, ?_, ?_, w1, w3⟩
  · have hraw : sub ms 0 = line := find_whole _ standard_startsBot standard_endsEot line ms hm
    rw [parse_standard now line ms hm]
    unfold standardHandler
    rw [hts, time.trim_stampText c sep frac hfrac, hp]
    simp only [entryOf, hraw]
  · have h1 : String.mk tx.text = String.mk (c.stampText sep frac) := by
      rw [← hts, hms]; rfl
    have h2 : tx.text = c.stampText sep frac := congrArg String.data h1
    have h3 : (sub ms 2).data = lvl := by rw [hms]; rfl
    have h4 : (sub ms 3).data = msg := by rw [hms]; rfl
    rw [h3, h4, ← h2]
    exact hline

/-- Claim C2 (amended) at the line `2024-01-01 12:00:00.123 [ERROR] boom`. -/
theorem C2_standard_valid_timestamp_witness :
    ∃ ns ws1 ws2, NewLogParser.Parse sampleNow "2024-01-01 12:00:00.123 [ERROR] boom" =
      .ok { Timestamp := ⟨2024, 1, 1, 12, 0, 0, ns, 0⟩, Level := "ERROR", Message := "boom",
            Fields := [], Raw := "2024-01-01 12:00:00.123 [ERROR] boom" } ∧
      "2024-01-01 12:00:00.123 [ERROR] boom" =
        String.mk (stampedLine ((⟨2024, 1, 1, 12, 0, 0⟩ : time.Civil).stampText [' ']
          ['.', '1', '2', '3']) ws1 "ERROR".data ws2 "boom".data) ∧
      (ws1 ≠ [] ∧ ∀ x ∈ ws1, isSpace x = true) ∧ (ws2 ≠ [] ∧ ∀ x ∈ ws2, isSpace x = true) :=
  C2_standard_valid_timestamp sampleNow "2024-01-01 12:00:00.123 [ERROR] boom"
    ["2024-01-01 12:00:00.123 [ERROR] boom", "2024-01-01 12:00:00.123", "ERROR", "boom"]
    ⟨2024, 1, 1, 12, 0, 0⟩ [' '] ['.', '1', '2', '3'] (by rfl) (by rfl) (by decide) (by simp)
    (by simp) (Or.inr ⟨'1', ['2', '3'], rfl, by decide⟩)

/-- Claim C3, refuted as stated: the line matches the standard pattern, its month is
13, and `Parse` returns the error instead of a record. -/
theorem C3_counterexample_month :
    standardRegex.FindStringSubmatch "2024-13-01 12:00:00 [INFO] hello" =
      some ["2024-13-01 12:00:00 [INFO] hello", "2024-13-01 12:00:00", "INFO", "hello"] ∧
    NewLogParser.Parse sampleNow "2024-13-01 12:00:00 [INFO] hello" = .error timeError :=
  ⟨by rfl, by rfl⟩

/-- Claim C3, amended: `Parse` returns a record and no error, except when the first
pattern that matches is one of the three with a timestamp and no layout of its
handler reads the captured timestamp: then the failure is not contained and `Parse`
returns the timestamp error. -/
theorem C3_record_or_timestamp_error (now : time.Time) (line : String) :
    ((∃ e, NewLogParser.Parse now line = .ok e) ∧ ¬ TimestampFails line) ∨
    (NewLogParser.Parse now line = .error timeError ∧ TimestampFails line) :=
  parse_cases now line

/-- Claim C4: `Parse` returns an error exactly when the first pattern that matches
is standard, iso8601 or json and none of the layouts of its handler reads the captured
timestamp; then no record is returned, the line is not turned into an `UNKNOWN` record,
and the recognizers after the matching one play no part in the result. -/
theorem C4_error_iff_timestamp_fails (now : time.Time) (line : String) :
    ((∃ err, NewLogParser.Parse now line = .error err) ↔ TimestampFails line) ∧
    (TimestampFails line →
      NewLogParser.Parse now line = .error timeError ∧
      (∀ e, NewLogParser.Parse now line ≠ .ok e) ∧
      NewLogParser.Parse now line ≠ .ok (unknownEntry now line)) ∧
    (∀ ms, standardRegex.FindStringSubmatch line = some ms →
      time.Parse time.layoutDateTime (sub ms 1) = none →
      time.Parse time.layoutDateTimeMilli (sub ms 1) = none →
      ∀ later, parseWith now line (standardPattern :: later) = .error timeError) ∧
    (∀ ms, standardRegex.FindStringSubmatch line = none →
      isoRegex.FindStringSubmatch line = some ms →
      time.Parse time.RFC3339 (sub ms 1) = none →
      time.Parse time.layoutTMilli (sub ms 1) = none →
      ∀ later, parseWith now line (standardPattern :: isoPattern :: later) = .error timeError) ∧
    (∀ ms, standardRegex.FindStringSubmatch line = none →
      isoRegex.FindStringSubmatch line = none →
      jsonRegex.FindStringSubmatch line = some ms →
      time.Parse time.RFC3339 (sub ms 1) = none →
      ∀ later, parseWith now line (standardPattern :: isoPattern :: jsonPattern :: later) =
        .error timeError) := by
  refine ⟨?_, ?_, ?_, ?_, ?_⟩
  · constructor
    · rintro ⟨err, herr⟩
      rcases parse_cases now line with ⟨⟨e, he⟩, _⟩ | ⟨_, hf⟩
      · rw [he] at herr; cases herr
      · exact hf
    · intro hf
      rcases parse_cases now line with ⟨_, hn⟩ | ⟨he, _⟩
      · exact absurd hf hn
      · exact ⟨_, he⟩
  · intro hf
    rcases parse_cases now line with ⟨_, hn⟩ | ⟨he, _⟩
    · exact absurd hf hn
    · refine ⟨he, ?_, ?_⟩
      · intro e h; rw [he] at h; cases h
      · intro h; rw [he] at h; cases h
  · intro ms hm p1 p2 later
    have htrim := standard_trim line ms hm
    simp [parseWith, standardPattern, hm, standardHandler, htrim, p1, p2]
  · intro ms hs hm p1 p2 later
    simp [parseWith, standardPattern, isoPattern, hs, hm, isoHandler, p1, p2]
  · intro ms hs hi hm p1 later
    simp [parseWith, standardPattern, isoPattern, jsonPattern, hs, hi, hm, jsonHandler, p1]

/-- Claim C9: whenever `Parse` returns a record, through a recognizer or through the
fallback, the raw text of the record is the whole input line. -/
theorem C9_raw_is_line (now : time.Time) (line : String) (e : LogEntry)
    (h : NewLogParser.Parse now line = .ok e) : e.Raw = line := by
  cases hs : standardRegex.FindStringSubmatch line with
  | some ms =>
    have hraw := find_whole _ standard_startsBot standard_endsEot line ms hs
    rw [parse_standard now line ms hs] at h
    rcases standardHandler_cases now ms with ⟨ts, h2⟩ | ⟨h2, _⟩
    · rw [h2] at h
      cases h
      exact hraw
    · rw [h2] at h; cases h
  | none =>
    cases hi : isoRegex.FindStringSubmatch line with
    | some ms =>
      have hraw := find_whole _ iso_startsBot iso_endsEot line ms hi
      rw [parse_iso now line ms hs hi] at h
      rcases isoHandler_cases now ms with ⟨ts, h2⟩ | ⟨h2, _⟩
      · rw [h2] at h
        cases h
        exact hraw
      · rw [h2] at h; cases h
    | none =>
      cases hj : jsonRegex.FindStringSubmatch line with
      | some ms =>
        have hraw := find_whole _ json_startsBot json_endsEot line ms hj
        rw [parse_json now line ms hs hi hj] at h
        rcases jsonHandler_cases now ms with ⟨ts, h2⟩ | ⟨h2, _⟩
        · rw [h2] at h
          cases h
          exact hraw
        · rw [h2] at h; cases h
      | none =>
        cases h4 : simpleRegex.FindStringSubmatch line with
        | some ms =>
          have hraw := find_whole _ simple_startsBot simple_endsEot line ms h4
          rw [parse_simple now line ms hs hi hj h4] at h
          cases h
          exact hraw
        | none =>
          rw [parse_unknown now line hs hi hj h4] at h
          cases h
          rfl

/-- Claim C9 at the line `2024-01-01T12:00:00Z [WARN] watch out`. -/
theorem C9_raw_is_line_witness :
    (entryOf ⟨2024, 1, 1, 12, 0, 0, 0, 0⟩ "WARN" "watch out"
      "2024-01-01T12:00:00Z [WARN] watch out").Raw = "2024-01-01T12:00:00Z [WARN] watch out" :=
  C9_raw_is_line sampleNow "2024-01-01T12:00:00Z [WARN] watch out" _ (by rfl)

/-- Claim C5: a record without fields is rendered as `[T] Level: Message`, where `T`
is its timestamp under the layout `2006-01-02 15:04:05.000`; the raw text plays no
part; a valid date and time with a four-digit year shows as `YYYY-MM-DD HH:MM:SS.mmm`,
the three digits being the milliseconds padded with zeros; and the record of the test
is rendered as `[2024-01-01 12:00:00.000] INFO: test msg`. -/
theorem C5_string_without_fields (e : LogEntry) (hF : e.Fields = []) :
    e.String = "[" ++ e.Timestamp.Format stampLayout ++ "] " ++ e.Level ++ ": " ++ e.Message ∧
    (∀ raw, LogEntry.String { e with Raw := raw } = e.String) ∧
    (∀ (c : time.Civil) (ns : Nat) (off : Int), c.Valid → ns < 1000000000 →
      e.Timestamp = ⟨c.year, c.month, c.day, c.hour, c.minute, c.second, ns, off⟩ →
      e.String = "[" ++ String.mk (c.stampText [' '] ('.' :: time.fixed 3 (ns / 1000000))) ++ "] " ++
        e.Level ++ ": " ++ e.Message ∧
      (time.fixed 3 (ns / 1000000)).length = 3 ∧
      ∀ d ∈ time.fixed 3 (ns / 1000000), time.isDigit d = true) ∧
    LogEntry.String { Timestamp := ⟨2024, 1, 1, 12, 0, 0, 0, 0⟩, Level := "INFO",
                      Message := "test msg", Fields := [], Raw := "raw" } =
      "[2024-01-01 12:00:00.000] INFO: test msg" := by
  have h1 : e.String =
      "[" ++ e.Timestamp.Format stampLayout ++ "] " ++ e.Level ++ ": " ++ e.Message := by
    simp [LogEntry.String, hF]
  refine ⟨h1, ?_, ?_, by rfl⟩
  · intro raw
    simp [LogEntry.String, hF]
  · intro c ns off hv hns ht
    refine ⟨?_, by simp [time.fixed], ?_⟩
    · rw [h1, ht]
      have := time.format_stamp c hv ns hns off
      simp only [stampLayout, this]
    · intro d hd
      simp only [time.fixed, List.nil_append, List.cons_append, List.mem_cons,
        List.mem_singleton, List.not_mem_nil, or_false] at hd
      rcases hd with rfl | rfl | rfl <;> exact time.isDigit_digitChar _

/-- Claim C5 at the record of the test. -/
theorem C5_string_without_fields_witness :
    LogEntry.String { Timestamp := ⟨2024, 1, 1, 12, 0, 0, 0, 0⟩, Level := "INFO",
                      Message := "test msg", Fields := [], Raw := "some raw text" } =
      "[" ++ String.mk ((⟨2024, 1, 1, 12, 0, 0⟩ : time.Civil).stampText [' ']
        ('.' :: time.fixed 3 (0 / 1000000))) ++ "] " ++ "INFO" ++ ": " ++ "test msg" :=
  ((C5_string_without_fields
    { Timestamp := ⟨2024, 1, 1, 12, 0, 0, 0, 0⟩, Level := "INFO", Message := "test msg",
      Fields := [], Raw := "some raw text" } rfl).2.2.1
    ⟨2024, 1, 1, 12, 0, 0⟩ 0 0 (by decide) (by decide) rfl).1

/-- Claim C6: a line `[L]`, white space, `m`, with `L` a non-empty run of word
characters and `m` a non-empty message that does not start with white space and has
no line feed, is parsed without error into the record with level `L`, message `m`
and the reading of the clock as timestamp; that record is rendered as `[T] L: m`
with `T` the reading of the clock under `2006-01-02 15:04:05.000`, and for a clock
that shows a valid date and time `T` is the text `YYYY-MM-DD HH:MM:SS.mmm` of that
date and time, the three digits being its milliseconds. -/
theorem C6_simple_round_trip (now : time.Time) (level ws message : String)
    (hl : level.data ≠ []) (hlw : ∀ c ∈ level.data, isWord c = true)
    (hw : ws.data ≠ []) (hws : ∀ c ∈ ws.data, isSpace c = true)
    (hm : message.data ≠ []) (hms : ∀ c ∈ message.data.head?, isSpace c = false)
    (hmn : ∀ c ∈ message.data, c ≠ '\n') :
    NewLogParser.Parse now ("[" ++ level ++ "]" ++ ws ++ message) =
      .ok { Timestamp := now, Level := level, Message := message, Fields := [],
            Raw := "[" ++ level ++ "]" ++ ws ++ message } ∧
    LogEntry.String { Timestamp := now, Level := level, Message := message, Fields := [],
                      Raw := "[" ++ level ++ "]" ++ ws ++ message } =
      "[" ++ now.Format stampLayout ++ "] " ++ level ++ ": " ++ message ∧
    ∀ (c : time.Civil) (ns : Nat) (off : Int), c.Valid → ns < 1000000000 →
      now = ⟨c.year, c.month, c.day, c.hour, c.minute, c.second, ns, off⟩ →
      LogEntry.String { Timestamp := now, Level := level, Message := message, Fields := [],
                        Raw := "[" ++ level ++ "]" ++ ws ++ message } =
        "[" ++ String.mk (c.stampText [' '] ('.' :: time.fixed 3 (ns / 1000000))) ++ "] " ++
          level ++ ": " ++ message ∧
      (time.fixed 3 (ns / 1000000)).length = 3 ∧
      ∀ d ∈ time.fixed 3 (ns / 1000000), time.isDigit d = true := by
  have hstr : LogEntry.String
      { Timestamp := now, Level := level, Message := message, Fields := [],
        Raw := "[" ++ level ++ "]" ++ ws ++ message } =
      "[" ++ now.Format stampLayout ++ "] " ++ level ++ ": " ++ message := by
    simp [LogEntry.String]
  refine ⟨?_, hstr, ?_⟩
  · have hnl : ∀ c ∈ message.data, anyNotNL c = true := by
      intro c hc
      have := hmn c hc
      simp only [anyNotNL, Bool.not_eq_true', decide_eq_false_iff_not]
      intro h
      apply this
      apply Char.ext
      apply UInt32.ext
      exact h
    obtain ⟨h1, h2, h3⟩ := simpleLine_others level.data ws.data message.data
    have h4 := simple_find level.data ws.data message.data hl hlw hw hws hm hms hnl
    rw [simpleLine_eq, parse_simple now _ _ h1 h2 h3 h4]
    rfl
  · intro c ns off hv hns hnow
    refine ⟨?_, by simp [time.fixed], ?_⟩
    · rw [hstr, hnow]
      have := time.format_stamp c hv ns hns off
      simp only [stampLayout, this]
    · intro d hd
      simp only [time.fixed, List.nil_append, List.cons_append, List.mem_cons,
        List.mem_singleton, List.not_mem_nil, or_false] at hd
      rcases hd with rfl | rfl | rfl <;> exact time.isDigit_digitChar _

/-- Claim C6 at the line `[DEBUG] hello` and the clock reading 2026-11-04 09:30:15.25. -/
theorem C6_simple_round_trip_witness :
    NewLogParser.Parse sampleNow "[DEBUG] hello" =
      .ok { Timestamp := sampleNow, Level := "DEBUG", Message := "hello", Fields := [],
            Raw := "[DEBUG] hello" } ∧
    LogEntry.String { Timestamp := sampleNow, Level := "DEBUG", Message := "hello", Fields := [],
                      Raw := "[DEBUG] hello" } = "[2026-11-04 09:30:15.250] DEBUG: hello" :=
  ⟨(C6_simple_round_trip sampleNow "DEBUG" " " "hello" (by decide) (by decide) (by decide)
      (by decide) (by decide) (by decide) (by decide)).1,
   ((C6_simple_round_trip sampleNow "DEBUG" " " "hello" (by decide) (by decide) (by decide)
      (by decide) (by decide) (by decide) (by decide)).2.2
      ⟨2026, 11, 4, 9, 30, 15⟩ 250000000 0 (by decide) (by decide) rfl).1⟩

/-- Claim C7, refuted as stated: a line of the iso8601 shape with a valid date and
time, without fraction and without `Z`, matches the ISO 8601 pattern and `Parse`
returns the timestamp error. -/
theorem C7_counterexample_bare :
    isoRegex.FindStringSubmatch "2024-01-01T12:00:00 [INFO] hello" =
      some ["2024-01-01T12:00:00 [INFO] hello", "2024-01-01T12:00:00", "INFO", "hello"] ∧
    "2024-01-01T12:00:00" = String.mk ((⟨2024, 1, 1, 12, 0, 0⟩ : time.Civil).isoText [] []) ∧
    time.Civil.Valid ⟨2024, 1, 1, 12, 0, 0⟩ ∧
    NewLogParser.Parse sampleNow "2024-01-01T12:00:00 [INFO] hello" = .error timeError :=
  ⟨by rfl, by rfl, by decide, by rfl⟩

/-- Claim C7, amended: when a line matches the ISO 8601 pattern, its date and time
are valid, and its timestamp either ends with `Z` (with a fraction or none) or has
no `Z` and a fraction of exactly three digits, `Parse` returns no error, the level
is the bracketed token (group 2) and the message is the remainder (group 3); the line
is the timestamp, white space, the level in brackets, white space and the message. -/
theorem C7_iso_valid_timestamp (now : time.Time) (line : String) (ms : List String)
    (c : time.Civil) (frac zone : List Char)
    (hm : isoRegex.FindStringSubmatch line = some ms)
    (hts : sub ms 1 = String.mk (c.isoText frac zone))
    (hv : c.Valid)
    (hshape : (zone = ['Z'] ∧ time.IsFraction frac) ∨
      (zone = [] ∧ ∃ a b d, frac = ['.', a, b, d] ∧ time.isDigit a = true ∧
        time.isDigit b = true ∧ time.isDigit d = true)) :
    ∃ ns ws1 ws2, NewLogParser.Parse now line =
      .ok { Timestamp := ⟨c.year, c.month, c.day, c.hour, c.minute, c.second, ns, 0⟩,
            Level := sub ms 2, Message := sub ms 3, Fields := [], Raw := line } ∧
      line = String.mk (stampedLine (c.isoText frac zone) ws1 (sub ms 2).data ws2
        (sub ms 3).data) ∧
      (ws1 ≠ [] ∧ ∀ x ∈ ws1, isSpace x = true) ∧ (ws2 ≠ [] ∧ ∀ x ∈ ws2, isSpace x = true) := by
  have hraw : sub ms 0 = line := find_whole _ iso_startsBot iso_endsEot line ms hm
  obtain ⟨tx, ws1, lvl, ws2, msg, _, hms, hline, w1, _, w3, _⟩ :=
    stamped_parts isoRegex isoStampRe isoStamp_groups isoStamp_eq rfl line ms hm
  have hshapeLine : line = String.mk (stampedLine (c.isoText frac zone) ws1 (sub ms 2).data ws2
      (sub ms 3).data) := by
    have h1 : String.mk tx.text = String.mk (c.isoText frac zone) := by
      rw [← hts, hms]; rfl
    have h2 : tx.text = c.isoText frac zone := congrArg String.data h1
    have h3 : (sub ms 2).data = lvl := by rw [hms]; rfl
    have h4 : (sub ms 3).data = msg := by rw [hms]; rfl
    rw [h3, h4, ← h2]
    exact hline
  have hparse : ∃ ns, isoHandler now ms =
      .ok (entryOf ⟨c.year, c.month, c.day, c.hour, c.minute, c.second, ns, 0⟩ (sub ms 2)
        (sub ms 3) (sub ms 0)) := by
    unfold isoHandler
    rw [hts]
    rcases hshape with ⟨rfl, hfrac⟩ | ⟨rfl, a, b, d, rfl, ha, hb, hd⟩
    · obtain ⟨ns, hp⟩ := time.parse_rfc3339 c hv frac hfrac .utc trivial
      simp only [time.Zone.text, time.Zone.seconds] at hp
      rw [hp]
      exact ⟨ns, rfl⟩
    · have hnone : time.Parse time.RFC3339 (String.mk (c.isoText ['.', a, b, d] [])) = none :=
        time.parse_rfc3339_bare c hv a b d ha hb hd
      obtain ⟨ns, hp⟩ := time.parse_tmilli c hv a b d ha hb hd
      rw [hnone, hp]
      exact ⟨ns, rfl⟩
  obtain ⟨ns, hp⟩ := hparse
  refine ⟨ns, ws1, ws2, ?_, hshapeLine, w1, w3⟩
  rw [parse_iso now line ms (iso_then_standard_none line ms hm) hm, hp]
  simp only [entryOf, hraw]

/-- Claim C7 (amended) at the line `2024-01-01T12:00:00Z [WARN] watch out`. -/
theorem C7_iso_valid_timestamp_witness :
    ∃ ns ws1 ws2, NewLogParser.Parse sampleNow "2024-01-01T12:00:00Z [WARN] watch out" =
      .ok { Timestamp := ⟨2024, 1, 1, 12, 0, 0, ns, 0⟩, Level := "WARN",
            Message := "watch out", Fields := [],
            Raw := "2024-01-01T12:00:00Z [WARN] watch out" } ∧
      "2024-01-01T12:00:00Z [WARN] watch out" =
        String.mk (stampedLine ((⟨2024, 1, 1, 12, 0, 0⟩ : time.Civil).isoText [] ['Z']) ws1
          "WARN".data ws2 "watch out".data) ∧
      (ws1 ≠ [] ∧ ∀ x ∈ ws1, isSpace x = true) ∧ (ws2 ≠ [] ∧ ∀ x ∈ ws2, isSpace x = true) :=
  C7_iso_valid_timestamp sampleNow "2024-01-01T12:00:00Z [WARN] watch out"
    ["2024-01-01T12:00:00Z [WARN] watch out", "2024-01-01T12:00:00Z", "WARN", "watch out"]
    ⟨2024, 1, 1, 12, 0, 0⟩ [] ['Z'] (by rfl) (by rfl) (by decide) (Or.inl ⟨rfl, Or.inl rfl⟩)

/-- Claim C8, refuted as stated: `1990-12-31T23:59:60Z`, the leap second that
RFC 3339 gives as an example, is a valid RFC 3339 timestamp with a zone designator,
non-empty and free of double quotes; the line of the JSON form that carries it matches
the JSON pattern and `Parse` returns the timestamp error. The same happens with the
lower-case `t` and `z` that RFC 3339 admits. -/
theorem C8_counterexample_leap_second :
    String.mk (jsonLine (fun _ => []) "1990-12-31T23:59:60Z".data "INFO".data "hi".data) =
      "\x7b\"timestamp\":\"1990-12-31T23:59:60Z\",\"level\":\"INFO\",\"message\":\"hi\"\x7d" ∧
    "1990-12-31T23:59:60Z".data =
      (⟨1990, 12, 31, 23, 59, 60⟩ : time.Civil).isoText [] time.Zone.utc.text ∧
    time.Civil.ValidRFC3339 ⟨1990, 12, 31, 23, 59, 60⟩ ∧
    jsonRegex.FindStringSubmatch
        (String.mk (jsonLine (fun _ => []) "1990-12-31T23:59:60Z".data "INFO".data "hi".data)) =
      some [String.mk (jsonLine (fun _ => []) "1990-12-31T23:59:60Z".data "INFO".data "hi".data),
        "1990-12-31T23:59:60Z", "INFO", "hi"] ∧
    NewLogParser.Parse sampleNow
        (String.mk (jsonLine (fun _ => []) "1990-12-31T23:59:60Z".data "INFO".data "hi".data)) =
      .error timeError ∧
    NewLogParser.Parse sampleNow
        (String.mk (jsonLine (fun _ => []) "2024-01-01t12:00:00z".data "INFO".data "hi".data)) =
      .error timeError := by
  refine ⟨by rfl, by rfl, by decide, ?_, ?_, ?_⟩
  · exact json_find (fun _ => []) _ _ _ (fun _ x hx => by simp at hx) (by decide)
      (notQuote_of_ne _ (by decide)) (by decide) (notQuote_of_ne _ (by decide)) (by decide)
      (notQuote_of_ne _ (by decide))
  · rw [parse_jsonLine sampleNow (fun _ => []) _ _ _ (fun _ x hx => by simp at hx) (by decide)
      (by decide) (by decide) (by decide) (by decide) (by decide)]
    rfl
  · rw [parse_jsonLine sampleNow (fun _ => []) _ _ _ (fun _ x hx => by simp at hx) (by decide)
      (by decide) (by decide) (by decide) (by decide) (by decide)]
    rfl

/-- Claim C8, amended: a line of the JSON form, the three keys in their order with
white space allowed around the punctuation, with a level and a message that are
non-empty and free of double quotes and with a timestamp `YYYY-MM-DDTHH:MM:SS`
(upper-case `T`), a fraction or none, then `Z` or a signed offset `hh:mm`, of a valid
date, a time of day from 00:00:00 to 23:59:59 and an offset up to 23:59, is parsed
without error into a record with that date, time and offset whose level and message
are the texts between the quotes; the same holds for every non-empty timestamp text
free of double quotes that the layout RFC3339 reads. -/
theorem C8_json_valid_timestamp (now : time.Time) (sp : Nat → List Char)
    (c : time.Civil) (frac : List Char) (z : time.Zone) (level message : List Char)
    (hsp : ∀ i, ∀ x ∈ sp i, isSpace x = true)
    (hv : c.Valid) (hfrac : time.IsFraction frac) (hz : z.Valid)
    (hl : level ≠ []) (hlq : ∀ x ∈ level, x ≠ '"')
    (hm : message ≠ []) (hmq : ∀ x ∈ message, x ≠ '"') :
    (∃ ns, NewLogParser.Parse now
        (String.mk (jsonLine sp (c.isoText frac z.text) level message)) =
      .ok { Timestamp := ⟨c.year, c.month, c.day, c.hour, c.minute, c.second, ns, z.seconds⟩,
            Level := String.mk level, Message := String.mk message, Fields := [],
            Raw := String.mk (jsonLine sp (c.isoText frac z.text) level message) }) ∧
    ∀ (stamp : List Char) (ts : time.Time), stamp ≠ [] → (∀ x ∈ stamp, x ≠ '"') →
      time.Parse time.RFC3339 (String.mk stamp) = some ts →
      NewLogParser.Parse now (String.mk (jsonLine sp stamp level message)) =
        .ok { Timestamp := ts, Level := String.mk level, Message := String.mk message,
              Fields := [], Raw := String.mk (jsonLine sp stamp level message) } := by
  have hgen : ∀ (stamp : List Char) (ts : time.Time), stamp ≠ [] → (∀ x ∈ stamp, x ≠ '"') →
      time.Parse time.RFC3339 (String.mk stamp) = some ts →
      NewLogParser.Parse now (String.mk (jsonLine sp stamp level message)) =
        .ok { Timestamp := ts, Level := String.mk level, Message := String.mk message,
              Fields := [], Raw := String.mk (jsonLine sp stamp level message) } := by
    intro stamp ts ht htq hts
    rw [parse_jsonLine now sp stamp level message hsp ht htq hl hlq hm hmq]
    simp only [jsonHandler, sub, List.getD_cons_succ, List.getD_cons_zero, hts, entryOf]
  refine ⟨?_, hgen⟩
  obtain ⟨ns, hp⟩ := time.parse_rfc3339 c hv frac hfrac z hz
  refine ⟨ns, hgen _ _ (isoText_ne_nil c frac z.text) ?_ hp⟩
  intro x hx e
  have := isoText_notQuote c frac hfrac z x hx
  rw [e] at this
  exact absurd this (by decide)

/-- Claim C8 (amended) at a line with a blank at every place where white space is
allowed, the timestamp `2024-01-01T12:00:00.5+08:00`, the level `INFO` and the message
`hi there`. -/
theorem C8_json_valid_timestamp_witness :
    ∃ ns, NewLogParser.Parse sampleNow
        (String.mk (jsonLine (fun _ => [' '])
          ((⟨2024, 1, 1, 12, 0, 0⟩ : time.Civil).isoText ['.', '5'] (time.Zone.east 8 0).text)
          "INFO".data "hi there".data)) =
      .ok { Timestamp := ⟨2024, 1, 1, 12, 0, 0, ns, 28800⟩,
            Level := "INFO", Message := "hi there", Fields := [],
            Raw := " \x7b \"timestamp\" : \"2024-01-01T12:00:00.5+08:00\" , \"level\" : \"INFO\" , \"message\" : \"hi there\" \x7d " } :=
  (C8_json_valid_timestamp sampleNow (fun _ => [' ']) ⟨2024, 1, 1, 12, 0, 0⟩ ['.', '5']
    (time.Zone.east 8 0) "INFO".data "hi there".data
    (fun _ x hx => by rw [List.mem_singleton.1 hx]; decide)
    (by decide) (Or.inr ⟨'5', [], rfl, by decide⟩) ⟨by decide, by decide⟩ (by decide)
    (by decide) (by decide) (by decide)).1

/-- Claim C10, refuted as stated: no line is matched by the patterns of two
recognizers; in particular the standard-format line `2024-01-01 12:00:00 [INFO] hello`
is not matched by the simple pattern, and the parser that tries the four recognizers
in the reverse order returns for it what `Parse` returns. -/
theorem C10_counterexample_no_overlap :
    (¬ ∃ line : String, ∃ p ∈ initPatterns, ∃ q ∈ initPatterns, p.name ≠ q.name ∧
      p.regex.FindStringSubmatch line ≠ none ∧ q.regex.FindStringSubmatch line ≠ none) ∧
    simpleRegex.FindStringSubmatch "2024-01-01 12:00:00 [INFO] hello" = none ∧
    LogParser.Parse ⟨[simplePattern, jsonPattern, isoPattern, standardPattern]⟩ sampleNow
        "2024-01-01 12:00:00 [INFO] hello" =
      NewLogParser.Parse sampleNow "2024-01-01 12:00:00 [INFO] hello" := by
  refine ⟨?_, by rfl, by rfl⟩
  rintro ⟨line, p, hp, q, hq, hne, h1, h2⟩
  exact hne (by rw [hit_unique line p q hp hq h1 h2])

/-- Claim C10, amended: the patterns of the four recognizers exclude each other, so a
parser that tries the four recognizers in any other order returns, for every line,
what `Parse` returns. -/
theorem C10_order_irrelevant (ps : List logPattern) (hperm : ps.Perm initPatterns)
    (now : time.Time) (line : String) :
    LogParser.Parse ⟨ps⟩ now line = NewLogParser.Parse now line :=
  parseWith_perm now line ps hperm

/-- Claim C10 (amended) at the reverse order and the line `[DEBUG] test`. -/
theorem C10_order_irrelevant_witness :
    LogParser.Parse ⟨[simplePattern, jsonPattern, isoPattern, standardPattern]⟩ sampleNow
        "[DEBUG] test" = NewLogParser.Parse sampleNow "[DEBUG] test" :=
  C10_order_irrelevant [simplePattern, jsonPattern, isoPattern, standardPattern]
    (List.reverse_perm initPatterns) sampleNow "[DEBUG] test"

end parser
